import Mathlib

/-!
# Verification of the transliteration engine (src/transliterator.py, src/chuvash_transliterator.py)

Shallow embedding of the two Cyrillic-to-Latin transliterators of the
repository.  Strings are modelled as `List Char`.  Python's `str.lower`,
`str.upper`, `str.capitalize` and `str.isupper` are modelled on the character
repertoire the program actually works with (ASCII letters, the basic Cyrillic
alphabet with Ё, the four Chuvash letters Ӑ Ӗ Ҫ Ӳ, and the accented Latin
letters appearing in mapping-table outputs); every other character is left
unchanged by the modelled case functions.  Python's full Unicode case mapping
moves further characters (Greek, archaic Cyrillic, fullwidth letters), so any
theorem whose content depends on a character being case-less confines that
hypothesis to characters that demonstrably have no case variants — the ASCII
characters other than letters — where the model and Python agree exactly;
the remaining case-sensitive theorems confine their words to the repertoire
above, on which the model is faithful letter by letter.
-/

set_option maxHeartbeats 1000000
set_option maxRecDepth 20000

/-- Lookup in an association list by key, first match wins.  Models Python's
`dict.get` over the (immutable) mapping dictionaries of the program. -/
def assocLookup {β : Type} (a : Char) : List (Char × β) → Option β
  | [] => none
  | (k, v) :: rest => if k = a then some v else assocLookup a rest

theorem assocLookup_mem {β : Type} {a : Char} {v : β} :
    ∀ {l : List (Char × β)}, assocLookup a l = some v → (a, v) ∈ l := by
  intro l
  induction l with
  | nil => intro h; simp [assocLookup] at h
  | cons p rest ih =>
    cases p with
    | mk k w =>
      intro h
      by_cases hk : k = a
      · subst hk
        simp only [assocLookup, if_pos, Option.some.injEq] at h
        simp_all
      · simp only [assocLookup, if_neg hk] at h
        exact List.mem_cons_of_mem _ (ih h)

theorem assocLookup_eq_none {β : Type} {a : Char} {l : List (Char × β)}
    (h : ∀ p ∈ l, p.1 ≠ a) : assocLookup a l = none := by
  induction l with
  | nil => rfl
  | cons p rest ih =>
    cases p with
    | mk k v =>
      have hk : k ≠ a := h (k, v) (List.mem_cons_self _ _)
      simp only [assocLookup, if_neg hk]
      exact ih (fun q hq => h q (List.mem_cons_of_mem _ hq))

/-- Uppercase-to-lowercase pairs of the modelled repertoire: ASCII, the
33 basic Cyrillic letters, the four Chuvash letters, and the accented Latin
letters used by the mapping tables. -/
def lowerPairs : List (Char × Char) :=
  [('A', 'a'), ('B', 'b'), ('C', 'c'), ('D', 'd'), ('E', 'e'), ('F', 'f'),
   ('G', 'g'), ('H', 'h'), ('I', 'i'), ('J', 'j'), ('K', 'k'), ('L', 'l'),
   ('M', 'm'), ('N', 'n'), ('O', 'o'), ('P', 'p'), ('Q', 'q'), ('R', 'r'),
   ('S', 's'), ('T', 't'), ('U', 'u'), ('V', 'v'), ('W', 'w'), ('X', 'x'),
   ('Y', 'y'), ('Z', 'z'),
   ('А', 'а'), ('Б', 'б'), ('В', 'в'), ('Г', 'г'), ('Д', 'д'), ('Е', 'е'),
   ('Ё', 'ё'), ('Ж', 'ж'), ('З', 'з'), ('И', 'и'), ('Й', 'й'), ('К', 'к'),
   ('Л', 'л'), ('М', 'м'), ('Н', 'н'), ('О', 'о'), ('П', 'п'), ('Р', 'р'),
   ('С', 'с'), ('Т', 'т'), ('У', 'у'), ('Ф', 'ф'), ('Х', 'х'), ('Ц', 'ц'),
   ('Ч', 'ч'), ('Ш', 'ш'), ('Щ', 'щ'), ('Ъ', 'ъ'), ('Ы', 'ы'), ('Ь', 'ь'),
   ('Э', 'э'), ('Ю', 'ю'), ('Я', 'я'),
   ('Ӑ', 'ӑ'), ('Ӗ', 'ӗ'), ('Ҫ', 'ҫ'), ('Ӳ', 'ӳ'),
   ('Æ', 'æ'), ('Ä', 'ä'), ('Ö', 'ö'), ('Ü', 'ü'), ('Ç', 'ç'),
   ('Ė', 'ė'), ('Ś', 'ś'), ('Š', 'š'), ('Ž', 'ž')]

/-- Lowercase-to-uppercase pairs, the inverse of `lowerPairs`. -/
def upperPairs : List (Char × Char) := lowerPairs.map (fun p => (p.2, p.1))

/-- Python `str.lower`, per character, on the modelled repertoire. -/
def pyLower (c : Char) : Char := (assocLookup c lowerPairs).getD c

/-- Python `str.upper` (= title case on this repertoire), per character. -/
def pyUpper (c : Char) : Char := (assocLookup c upperPairs).getD c

/-- Python `str.isupper` for a single character of the modelled repertoire. -/
def pyIsUpper (c : Char) : Bool := (assocLookup c lowerPairs).isSome

/-- Python `str.capitalize`: first character title-cased, the rest lowered. -/
def pyCapitalize : List Char → List Char
  | [] => []
  | c :: rest => pyUpper c :: rest.map pyLower

/-- The value side of every case pair is not itself an uppercase key. -/
theorem lower_value_not_key : ∀ p ∈ lowerPairs, assocLookup p.2 lowerPairs = none := by
  decide

theorem pyIsUpper_pyLower (c : Char) : pyIsUpper (pyLower c) = false := by
  unfold pyIsUpper pyLower
  cases h : assocLookup c lowerPairs with
  | none => simp [h]
  | some v =>
    have hv := assocLookup_mem h
    have := lower_value_not_key (c, v) hv
    simp only [Option.getD_some]
    simp_all

/-- Every lowercase value has an uppercase counterpart, so a character that is
fixed by `pyUpper` is never a value of a case pair. -/
theorem upper_moves_values : ∀ p ∈ lowerPairs, pyUpper p.2 ≠ p.2 := by decide

/-!
## Tokenizer

Both variants split the input with `re.split(r'([\s,.!?]+)', text)`.  With the
separator class captured, `re.split` returns the pieces between separator runs
interleaved with the separator runs themselves, in order: an alternating
sequence of maximal runs of non-separator characters (word tokens) and maximal
runs of separator characters (separator tokens).  (Python also inserts empty
strings when the text starts or ends with a separator run; an empty piece
contributes nothing to the rebuilt output and contains no source letters, so
the embedding drops it.)  `\s` is modelled by the Unicode white-space set
Python's `re` uses for `str` patterns.
-/

/-- Code points matched by `\s` in a Python `str` regex. -/
def pyWhitespaceCodes : List Nat :=
  [9, 10, 11, 12, 13, 28, 29, 30, 31, 32, 133, 160, 0x1680,
   0x2000, 0x2001, 0x2002, 0x2003, 0x2004, 0x2005, 0x2006, 0x2007,
   0x2008, 0x2009, 0x200A, 0x2028, 0x2029, 0x202F, 0x205F, 0x3000]

def pyWhitespace (c : Char) : Bool := c.toNat ∈ pyWhitespaceCodes

/-- Separator class of the tokenizer: the character class `[\s,.!?]`. -/
def sepChar (c : Char) : Bool :=
  pyWhitespace c || c = ',' || c = '.' || c = '!' || c = '?'

/-- A token: a span of the input, tagged as separator run or word run. -/
structure Token where
  isSep : Bool
  chars : List Char
  deriving DecidableEq, Repr

/-- Accumulating scanner: `cur` (reversed) is the currently open run, `k` its
class; a character of the other class closes the run and opens a new one. -/
def tokAux (cur : List Char) (k : Bool) : List Char → List Token
  | [] => [⟨k, cur.reverse⟩]
  | c :: cs =>
    if sepChar c = k then tokAux (c :: cur) k cs
    else ⟨k, cur.reverse⟩ :: tokAux [c] (sepChar c) cs

/-- The tokenizer: maximal alternating runs of separator and non-separator
characters, in input order. -/
def tokenize : List Char → List Token
  | [] => []
  | c :: cs => tokAux [c] (sepChar c) cs

theorem tokAux_join (l : List Char) :
    ∀ (cur : List Char) (k : Bool),
      ((tokAux cur k l).map Token.chars).flatten = cur.reverse ++ l := by
  induction l with
  | nil => intro cur k; simp [tokAux]
  | cons c cs ih =>
    intro cur k
    by_cases h : sepChar c = k
    · simp [tokAux, h, ih]
    · simp [tokAux, h, ih]

/-- Losslessness: concatenating all tokens reproduces the input exactly. -/
theorem tokenize_join (s : List Char) :
    ((tokenize s).map Token.chars).flatten = s := by
  cases s with
  | nil => rfl
  | cons c cs => simp [tokenize, tokAux_join]

theorem tokAux_ne_nil (l : List Char) : ∀ (cur : List Char) (k : Bool),
    tokAux cur k l ≠ [] := by
  induction l with
  | nil => intro cur k; simp [tokAux]
  | cons c cs ih =>
    intro cur k
    by_cases h : sepChar c = k <;> simp [tokAux, h, ih]

/-- Every token produced by the scanner from a well-formed open run is a
nonempty run of characters of its declared class, and consecutive tokens
alternate classes. -/
theorem tokAux_spec (l : List Char) :
    ∀ (cur : List Char) (k : Bool), cur ≠ [] → (∀ c ∈ cur, sepChar c = k) →
      (∀ t ∈ tokAux cur k l, t.chars ≠ [] ∧ ∀ c ∈ t.chars, sepChar c = t.isSep) ∧
      (tokAux cur k l).Chain' (fun a b => a.isSep ≠ b.isSep) ∧
      (∀ t ∈ tokAux cur k l, ∀ u, tokAux cur k l = t :: u → t.isSep = k) := by
  induction l with
  | nil =>
    intro cur k hcur hclass
    refine ⟨?_, ?_, ?_⟩
    · intro t ht
      simp [tokAux] at ht
      subst ht
      refine ⟨by simpa using hcur, ?_⟩
      intro c hc
      exact hclass c (by simpa using hc)
    · simp [tokAux]
    · intro t ht u hu
      simp [tokAux] at hu
      rw [← hu.1]
  | cons c cs ih =>
    intro cur k hcur hclass
    by_cases h : sepChar c = k
    · have hcl : ∀ x ∈ c :: cur, sepChar x = k := by
        intro x hx
        rcases List.mem_cons.mp hx with hx | hx
        · subst hx; exact h
        · exact hclass x hx
      have := ih (c :: cur) k (by simp) hcl
      simpa [tokAux, h] using this
    · have hrest := ih [c] (sepChar c) (by simp) (by intro x hx; simp at hx; subst hx; rfl)
      have hne := tokAux_ne_nil cs [c] (sepChar c)
      constructor
      · intro t ht
        simp only [tokAux, if_neg h, List.mem_cons] at ht
        rcases ht with ht | ht
        · subst ht
          exact ⟨by simpa using hcur, by intro x hx; exact hclass x (by simpa using hx)⟩
        · exact hrest.1 t ht
      constructor
      · simp only [tokAux, if_neg h]
        rcases hhd : tokAux [c] (sepChar c) cs with _ | ⟨t0, rest⟩
        · exact absurd hhd hne
        · refine List.Chain'.cons ?_ ?_
          · have := hrest.2.2 t0 (by rw [hhd]; exact List.mem_cons_self _ _) rest hhd
            simp only [this]
            exact fun hk => h hk.symm
          · have := hrest.2.1
            rwa [hhd] at this
      · intro t ht u hu
        simp only [tokAux, if_neg h] at hu
        have : t = ⟨k, cur.reverse⟩ := by
          cases hu
          rfl
        rw [this]

/-!
## Russian transliterator (src/transliterator.py, class RussianTransliterator)

The word transducer is the `while` loop of `transliterate_word`: one step
(`rusStep`) consumes the character at index `i` of the case-folded word
(`prev`/`next` are the neighbouring characters, absent at the edges — Python
uses the empty string there, which fails every membership and regex test, so
`Option.none` is the faithful rendering), appends zero or more output units to
`result`, and advances the index by one or two.  `result[-1] = 'e'` in the й
rule is modelled by `List.dropLast` plus an append (it is reached only with
`prev = 'и'`, in which case at least one unit has已 been emitted, so the
Python `IndexError` on an empty `result` is unreachable).  The loop and the
`-ый` suffix recursion are given fuel (`rusLoopF`, `rusTWF`); fuel equal to
the word length is always enough because every step advances.
-/

namespace RussianTransliterator

/-- `self.map`: the basic character mapping, values as character lists. -/
def rusPairs : List (Char × List Char) :=
  [('а', ['a']), ('б', ['b']), ('в', ['v']), ('г', ['g']), ('д', ['d']),
   ('е', ['e']), ('ё', ['e']), ('ж', ['j']), ('з', ['z']), ('и', ['i']),
   ('й', ['i']), ('к', ['k']), ('л', ['l']), ('м', ['m']), ('н', ['n']),
   ('о', ['o']), ('п', ['p']), ('р', ['r']), ('с', ['s']), ('т', ['t']),
   ('у', ['u']), ('ф', ['f']), ('х', ['h']), ('ц', ['q']), ('ч', ['c']),
   ('ш', ['x']), ('щ', ['s', 'c']), ('ъ', ['i']), ('ы', ['y']), ('ь', ['i']),
   ('э', ['æ']), ('ю', ['e', 'u']), ('я', ['e', 'a'])]

def rusMap (c : Char) : Option (List Char) := assocLookup c rusPairs

/-- `self.vowels`. -/
def rusVowels : List Char := ['а', 'е', 'ё', 'и', 'о', 'у', 'ы', 'э', 'ю', 'я']

/-- `self.consonants_pattern`: the regex class `[бвгджзйклмнпрстфхцчшщ]`. -/
def rusConsonant (c : Char) : Bool :=
  c ∈ ['б', 'в', 'г', 'д', 'ж', 'з', 'й', 'к', 'л', 'м', 'н',
       'п', 'р', 'с', 'т', 'ф', 'х', 'ц', 'ч', 'ш', 'щ']

/-- `self.consonants_pattern.match(prev)` — the empty string never matches. -/
def optCons : Option Char → Bool
  | some p => rusConsonant p
  | none => false

/-- `prev in self.vowels` — false for the empty string. -/
def optVowel : Option Char → Bool
  | some p => p ∈ rusVowels
  | none => false

/-- `letters[i - 1] if i > 0 else \'\'` — the previous character, if any. -/
def prevAt (lw : List Char) (i : Nat) : Option Char :=
  if i = 0 then none else lw.get? (i - 1)

/-- `letters[i + 1] if i < len(letters) - 1 else \'\'` — the next character. -/
def nextAt (lw : List Char) (i : Nat) : Option Char := lw.get? (i + 1)

/-- Soft-sign duplication: `if is_soft: result.append(self.map.get(prev, prev))`. -/
def dupAcc (acc : List (List Char)) (soft : Bool) (p : Char) : List (List Char) :=
  if soft then acc ++ [(rusMap p).getD [p]] else acc

/-- The vowel-lookahead part of the sign rule: what follows the sign decides
the emission and the advance. -/
def signVowelStep (i : Nat) (acc1 : List (List Char)) :
    Option Char → Nat × List (List Char)
  | some n =>
    if n = 'а' ∨ n = 'э' ∨ n = 'ы' ∨ n = 'о' ∨ n = 'у' ∨ n = 'и' then
      (i + 2, acc1 ++ ['i' :: (rusMap n).getD []])
    else if n = 'ю' then (i + 2, acc1 ++ [['i'], ['u']])
    else if n = 'я' then (i + 2, acc1 ++ [['i'], ['a']])
    else if n = 'ё' then (i + 2, acc1 ++ [['i'], ['o']])
    else if n = 'е' then (i + 2, acc1 ++ [['i'], ['e']])
    else (i + 1, acc1)
  | none => (i + 1, acc1)

/-- The soft/hard sign block: with a consonant before the sign, duplicate it
(soft sign only) and look at the next character; otherwise emit `i`. -/
def signStep (lw : List Char) (i : Nat) (acc : List (List Char)) (ch : Char) :
    Nat × List (List Char) :=
  match prevAt lw i with
  | some p =>
    if rusConsonant p then
      signVowelStep i (dupAcc acc (ch = 'ь') p) (nextAt lw i)
    else (i + 1, acc ++ [['i']])
  | none => (i + 1, acc ++ [['i']])

/-- The и rule: `ii` after a vowel other than и when no iotated vowel follows. -/
def iUnit (prev next : Option Char) : List Char :=
  if prev = some 'и' then ['i']
  else if optVowel prev ∧ ¬(next = some 'я' ∨ next = some 'ё' ∨ next = some 'ю') then
    ['i', 'i']
  else ['i']

/-- The я rule. -/
def yaUnit (prev : Option Char) : List Char :=
  if optCons prev then ['ä']
  else if prev = some 'и' then ['i', 'a']
  else if optVowel prev then ['a'] else ['e', 'a']

/-- The ё rule. -/
def yoUnit (prev : Option Char) : List Char :=
  if optCons prev then ['e']
  else if prev = some 'и' then ['i', 'o']
  else if optVowel prev then ['e'] else ['e']

/-- The ю rule. -/
def yuUnit (prev : Option Char) : List Char :=
  if optCons prev then ['ü']
  else if prev = some 'и' then ['i', 'u']
  else if optVowel prev then ['u'] else ['e', 'u']

/-- Condition of the а/о glide rules: previous is a vowel other than и, е and
other than the current letter itself. -/
def glideCond (prev : Option Char) (same : Char) : Bool :=
  match prev with
  | some p => p ∈ rusVowels && p ≠ 'и' && p ≠ 'е' && p ≠ same
  | none => false

/-- One iteration of the `while i < len(letters)` loop of
`transliterate_word`, for current character `ch = letters[i]`. -/
def rusStepCh (lw : List Char) (i : Nat) (acc : List (List Char)) (ch : Char) :
    Nat × List (List Char) :=
  -- Handle и + (я/ё/ю) combinations
  if ch = 'и' ∧ (nextAt lw i = some 'я' ∨ nextAt lw i = some 'ё' ∨ nextAt lw i = some 'ю') then
    (i + 2, acc ++ [if nextAt lw i = some 'я' then ['i', 'a']
                    else if nextAt lw i = some 'ё' then ['i', 'o'] else ['i', 'u']])
  -- Handle soft signs (ь, ъ)
  else if ch = 'ь' ∨ ch = 'ъ' then signStep lw i acc ch
  -- Handle й (`result[-1] = \'e\'` is modelled by dropLast; it is reached only
  -- with prev = и, when result is necessarily nonempty)
  else if ch = 'й' then
    if prevAt lw i = some 'и' then (i + 1, acc.dropLast ++ [['e'], ['i']])
    else (i + 1, acc ++ [['i']])
  -- Handle и
  else if ch = 'и' then (i + 1, acc ++ [iUnit (prevAt lw i) (nextAt lw i)])
  -- Handle я
  else if ch = 'я' then (i + 1, acc ++ [yaUnit (prevAt lw i)])
  -- Handle ё
  else if ch = 'ё' then (i + 1, acc ++ [yoUnit (prevAt lw i)])
  -- Handle ю
  else if ch = 'ю' then (i + 1, acc ++ [yuUnit (prevAt lw i)])
  -- Handle у
  else if ch = 'у' then
    (i + 1, acc ++ [if optVowel (prevAt lw i) then ['w'] else ['u']])
  -- Handle а after vowels (except и, е) - but not after the same vowel
  else if ch = 'а' ∧ glideCond (prevAt lw i) 'а' then (i + 1, acc ++ [['w', 'a']])
  -- Handle о after vowels (except и, е) - but not after the same vowel
  else if ch = 'о' ∧ glideCond (prevAt lw i) 'о' then (i + 1, acc ++ [['w', 'o']])
  -- Default mapping (`self.map.get(ch, ch)`)
  else (i + 1, acc ++ [(rusMap ch).getD [ch]])

/-- One loop iteration at index `i` (no-op past the end of the word). -/
def rusStep (lw : List Char) (i : Nat) (acc : List (List Char)) :
    Nat × List (List Char) :=
  match lw.get? i with
  | none => (i + 1, acc)
  | some ch => rusStepCh lw i acc ch

theorem signVowelStep_fst (i : Nat) (acc1 : List (List Char)) (next : Option Char) :
    (signVowelStep i acc1 next).1 = i + 1 ∨ (signVowelStep i acc1 next).1 = i + 2 := by
  rcases next with _ | n
  · left; rfl
  · unfold signVowelStep
    repeat' first
      | (left; rfl)
      | (right; rfl)
      | split

theorem signStep_fst (lw : List Char) (i : Nat) (acc : List (List Char)) (ch : Char) :
    (signStep lw i acc ch).1 = i + 1 ∨ (signStep lw i acc ch).1 = i + 2 := by
  unfold signStep
  rcases prevAt lw i with _ | p
  · left; rfl
  · dsimp only
    split
    · exact signVowelStep_fst _ _ _
    · left; rfl

/-- Branch lemma: the и + iotated-vowel digraph rule fires. -/
theorem rusStepCh_iot (lw : List Char) (i : Nat) (acc : List (List Char))
    (h : nextAt lw i = some 'я' ∨ nextAt lw i = some 'ё' ∨ nextAt lw i = some 'ю') :
    rusStepCh lw i acc 'и' =
      (i + 2, acc ++ [if nextAt lw i = some 'я' then ['i', 'a']
                      else if nextAt lw i = some 'ё' then ['i', 'o'] else ['i', 'u']]) := by
  unfold rusStepCh
  rw [if_pos ⟨rfl, h⟩]

/-- Branch lemma: the soft/hard sign block. -/
theorem rusStepCh_sign (lw : List Char) (i : Nat) (acc : List (List Char))
    (ch : Char) (h : ch = 'ь' ∨ ch = 'ъ') :
    rusStepCh lw i acc ch = signStep lw i acc ch := by
  have h1 : ¬(ch = 'и' ∧ (nextAt lw i = some 'я' ∨ nextAt lw i = some 'ё' ∨
      nextAt lw i = some 'ю')) := fun hc => by
    rcases h with h | h <;> subst h <;> simp at hc
  unfold rusStepCh
  rw [if_neg h1, if_pos h]

/-- Branch lemma: the й rule. -/
theorem rusStepCh_j (lw : List Char) (i : Nat) (acc : List (List Char)) :
    rusStepCh lw i acc 'й' =
      (if prevAt lw i = some 'и' then (i + 1, acc.dropLast ++ [['e'], ['i']])
       else (i + 1, acc ++ [['i']])) := by
  unfold rusStepCh
  rw [if_neg (fun hc => by simp at hc), if_neg (by decide), if_pos rfl]

/-- Branch lemma: the standalone и rule. -/
theorem rusStepCh_i (lw : List Char) (i : Nat) (acc : List (List Char))
    (h : ¬(nextAt lw i = some 'я' ∨ nextAt lw i = some 'ё' ∨ nextAt lw i = some 'ю')) :
    rusStepCh lw i acc 'и' = (i + 1, acc ++ [iUnit (prevAt lw i) (nextAt lw i)]) := by
  unfold rusStepCh
  rw [if_neg (fun hc => h hc.2), if_neg (by decide), if_neg (by decide), if_pos rfl]

/-- Branch lemma: the я rule. -/
theorem rusStepCh_ya (lw : List Char) (i : Nat) (acc : List (List Char)) :
    rusStepCh lw i acc 'я' = (i + 1, acc ++ [yaUnit (prevAt lw i)]) := by
  unfold rusStepCh
  rw [if_neg (fun hc => by simp at hc), if_neg (by decide), if_neg (by decide),
    if_neg (by decide), if_pos rfl]

/-- Branch lemma: the ё rule. -/
theorem rusStepCh_yo (lw : List Char) (i : Nat) (acc : List (List Char)) :
    rusStepCh lw i acc 'ё' = (i + 1, acc ++ [yoUnit (prevAt lw i)]) := by
  unfold rusStepCh
  rw [if_neg (fun hc => by simp at hc), if_neg (by decide), if_neg (by decide),
    if_neg (by decide), if_neg (by decide), if_pos rfl]

/-- Branch lemma: the ю rule. -/
theorem rusStepCh_yu (lw : List Char) (i : Nat) (acc : List (List Char)) :
    rusStepCh lw i acc 'ю' = (i + 1, acc ++ [yuUnit (prevAt lw i)]) := by
  unfold rusStepCh
  rw [if_neg (fun hc => by simp at hc), if_neg (by decide), if_neg (by decide),
    if_neg (by decide), if_neg (by decide), if_neg (by decide), if_pos rfl]

/-- Branch lemma: the у rule. -/
theorem rusStepCh_u (lw : List Char) (i : Nat) (acc : List (List Char)) :
    rusStepCh lw i acc 'у' =
      (i + 1, acc ++ [if optVowel (prevAt lw i) then ['w'] else ['u']]) := by
  unfold rusStepCh
  rw [if_neg (fun hc => by simp at hc), if_neg (by decide), if_neg (by decide),
    if_neg (by decide), if_neg (by decide), if_neg (by decide), if_neg (by decide),
    if_pos rfl]

/-- Branch lemma: the а glide rule. -/
theorem rusStepCh_a_glide (lw : List Char) (i : Nat) (acc : List (List Char))
    (h : glideCond (prevAt lw i) 'а' = true) :
    rusStepCh lw i acc 'а' = (i + 1, acc ++ [['w', 'a']]) := by
  unfold rusStepCh
  rw [if_neg (fun hc => by simp at hc), if_neg (by decide), if_neg (by decide),
    if_neg (by decide), if_neg (by decide), if_neg (by decide), if_neg (by decide),
    if_neg (by decide), if_pos ⟨rfl, h⟩]

/-- Branch lemma: the о glide rule. -/
theorem rusStepCh_o_glide (lw : List Char) (i : Nat) (acc : List (List Char))
    (h : glideCond (prevAt lw i) 'о' = true) :
    rusStepCh lw i acc 'о' = (i + 1, acc ++ [['w', 'o']]) := by
  unfold rusStepCh
  rw [if_neg (fun hc => by simp at hc), if_neg (by decide), if_neg (by decide),
    if_neg (by decide), if_neg (by decide), if_neg (by decide), if_neg (by decide),
    if_neg (by decide), if_neg (fun hc => by simp at hc), if_pos ⟨rfl, h⟩]

/-- Branch lemma: the default mapping, for every character handled by no
earlier rule. -/
theorem rusStepCh_default (lw : List Char) (i : Nat) (acc : List (List Char))
    (ch : Char)
    (h : ch ∉ ['и', 'ь', 'ъ', 'й', 'я', 'ё', 'ю', 'у'])
    (ha : ch = 'а' → glideCond (prevAt lw i) 'а' = false)
    (ho : ch = 'о' → glideCond (prevAt lw i) 'о' = false) :
    rusStepCh lw i acc ch = (i + 1, acc ++ [(rusMap ch).getD [ch]]) := by
  simp only [List.mem_cons, List.not_mem_nil, or_false, not_or] at h
  obtain ⟨n1, n2, n3, n4, n5, n6, n7, n8⟩ := h
  unfold rusStepCh
  rw [if_neg (fun hc => n1 hc.1), if_neg (by tauto), if_neg n4, if_neg n1,
    if_neg n5, if_neg n6, if_neg n7, if_neg n8,
    if_neg (fun hc => by rw [ha hc.1] at hc; exact Bool.false_ne_true hc.2),
    if_neg (fun hc => by rw [ho hc.1] at hc; exact Bool.false_ne_true hc.2)]

theorem rusStepCh_fst (lw : List Char) (i : Nat) (acc : List (List Char))
    (ch : Char) :
    (rusStepCh lw i acc ch).1 = i + 1 ∨ (rusStepCh lw i acc ch).1 = i + 2 := by
  by_cases h1 : ch = 'и'
  · subst h1
    by_cases h2 : nextAt lw i = some 'я' ∨ nextAt lw i = some 'ё' ∨ nextAt lw i = some 'ю'
    · rw [rusStepCh_iot lw i acc h2]; right; rfl
    · rw [rusStepCh_i lw i acc h2]; left; rfl
  by_cases h2 : ch = 'ь' ∨ ch = 'ъ'
  · rw [rusStepCh_sign lw i acc ch h2]; exact signStep_fst lw i acc ch
  by_cases h3 : ch = 'й'
  · subst h3
    rw [rusStepCh_j]
    split
    · left; rfl
    · left; rfl
  by_cases h5 : ch = 'я'
  · subst h5; rw [rusStepCh_ya]; left; rfl
  by_cases h6 : ch = 'ё'
  · subst h6; rw [rusStepCh_yo]; left; rfl
  by_cases h7 : ch = 'ю'
  · subst h7; rw [rusStepCh_yu]; left; rfl
  by_cases h8 : ch = 'у'
  · subst h8; rw [rusStepCh_u]; left; rfl
  by_cases h9 : ch = 'а'
  · subst h9
    by_cases hg : glideCond (prevAt lw i) 'а' = true
    · rw [rusStepCh_a_glide lw i acc hg]; left; rfl
    · rw [rusStepCh_default lw i acc 'а' (by decide)
        (fun _ => Bool.not_eq_true _ ▸ hg) (by simp)]
      left; rfl
  by_cases h10 : ch = 'о'
  · subst h10
    by_cases hg : glideCond (prevAt lw i) 'о' = true
    · rw [rusStepCh_o_glide lw i acc hg]; left; rfl
    · rw [rusStepCh_default lw i acc 'о' (by decide) (by simp)
        (fun _ => Bool.not_eq_true _ ▸ hg)]
      left; rfl
  · rw [rusStepCh_default lw i acc ch (by simp_all)
      (fun hc => absurd hc h9) (fun hc => absurd hc h10)]
    left; rfl

theorem rusStep_fst (lw : List Char) (i : Nat) (acc : List (List Char)) :
    (rusStep lw i acc).1 = i + 1 ∨ (rusStep lw i acc).1 = i + 2 := by
  unfold rusStep
  rcases lw.get? i with _ | ch
  · left; rfl
  · exact rusStepCh_fst lw i acc ch

/-- The transducer loop, with fuel: runs `rusStep` while `i < len(letters)`.
Fuel at least `lw.length - i` makes the fuel bound irrelevant. -/
def rusLoopF : Nat → List Char → Nat → List (List Char) → List (List Char)
  | 0, _, _, acc => acc
  | fuel + 1, lw, i, acc =>
    if i < lw.length then
      let s := rusStep lw i acc
      rusLoopF fuel lw s.1 s.2
    else acc

/-- `word_lower.endswith('ый')`. -/
def endsYj (lw : List Char) : Bool :=
  match lw.reverse with
  | c1 :: c2 :: _ => c1 = 'й' ∧ c2 = 'ы'
  | _ => false

/-- `word[0].isupper()` (false for the empty word). -/
def headUpper : List Char → Bool
  | [] => false
  | c :: _ => pyIsUpper c

/-- `transliterate_word`, with fuel for the `-ый` self-recursion (strip the
suffix of the original-case word, recurse, append a literal `y`). -/
def rusTWF : Nat → List Char → List Char
  | _, [] => []
  | 0, _ :: _ => []
  | fuel + 1, w =>
    let lw := w.map pyLower
    if endsYj lw then rusTWF fuel (w.take (w.length - 2)) ++ ['y']
    else
      let t := (rusLoopF lw.length lw 0 []).flatten
      if headUpper w then pyCapitalize t else t

/-- `RussianTransliterator.transliterate_word`. -/
def transliterate_word (w : List Char) : List Char := rusTWF w.length w

/-- `re.search(r'[а-яё]', token, re.IGNORECASE)` per character.  With
`re.IGNORECASE`, matching is by full case folding, so besides the basic
Cyrillic letters а-я / А-Я and ё / Ё the class also matches the Cyrillic
Extended-C letters U+1C80–U+1C86 (ᲀ ᲁ ᲂ ᲃ ᲄ ᲅ ᲆ), whose case folds are
в / д / о / с / т / т / ъ, all inside а-я. -/
def detectRus (c : Char) : Bool :=
  (0x430 ≤ c.toNat && c.toNat ≤ 0x44F) || c.toNat = 0x451 ||
  (0x410 ≤ c.toNat && c.toNat ≤ 0x42F) || c.toNat = 0x401 ||
  (0x1C80 ≤ c.toNat && c.toNat ≤ 0x1C86)

/-- The per-token processing of `transliterate`: a token containing a
Cyrillic character is transliterated, every other token passes through. -/
def processToken (t : Token) : List Char :=
  if t.chars.any detectRus then transliterate_word t.chars else t.chars

/-- `RussianTransliterator.transliterate`: split into tokens, transliterate
the tokens containing Cyrillic, pass the rest through. -/
def transliterate (text : List Char) : List Char :=
  if text = [] then text
  else ((tokenize text).map processToken).flatten

end RussianTransliterator

/-!
## Chuvash transliterator (src/chuvash_transliterator.py, class ChuvashTransliterator)

Three-stage pipeline per word: `process_soft_sign` (regex substitution
`([А-Яа-яЁёӐӑӖӗҪҫӲӳ])([ьЬ])` → doubled first group, leftmost
non-overlapping matches, exactly the recursion below), `handle_iotation`
(`for i, char in enumerate(word)` with lookbehind `word[i-1]`, i.e. the
previous character), and the character map.
-/

namespace ChuvashTransliterator

/-- `self.map`: the Chuvash transliteration map, values as character lists
(the soft and hard signs map to the empty string). -/
def chuvPairs : List (Char × List Char) :=
  [('А', ['A']), ('а', ['a']),
   ('Ӑ', ['O']), ('ӑ', ['o']),
   ('В', ['V']), ('в', ['v']),
   ('Ӗ', ['Ė']), ('ӗ', ['ė']),
   ('И', ['I']), ('и', ['i']),
   ('Й', ['J']), ('й', ['j']),
   ('К', ['K']), ('к', ['k']),
   ('Л', ['L']), ('л', ['l']),
   ('М', ['M']), ('м', ['m']),
   ('Н', ['N']), ('н', ['n']),
   ('О', ['O']), ('о', ['o']),
   ('П', ['P']), ('п', ['p']),
   ('Р', ['R']), ('р', ['r']),
   ('С', ['S']), ('с', ['s']),
   ('Ҫ', ['Ś']), ('ҫ', ['ś']),
   ('Т', ['T']), ('т', ['t']),
   ('У', ['U']), ('у', ['u']),
   ('Ӳ', ['Ü']), ('ӳ', ['ü']),
   ('Х', ['H']), ('х', ['h']),
   ('Ч', ['C']), ('ч', ['c']),
   ('Ç', ['Ś']), ('ç', ['ś']),
   ('Ш', ['Š']), ('ш', ['š']),
   ('Ы', ['Y']), ('ы', ['y']),
   ('Э', ['E']), ('э', ['e']),
   ('Ж', ['Ž']), ('ж', ['ž']),
   ('Щ', ['Ś']), ('щ', ['ś']),
   ('Б', ['B']), ('б', ['b']),
   ('Г', ['G']), ('г', ['g']),
   ('Д', ['D']), ('д', ['d']),
   ('З', ['Z']), ('з', ['z']),
   ('Ц', ['T', 's']), ('ц', ['t', 's']),
   ('Ф', ['F']), ('ф', ['f']),
   ('Ъ', []), ('ъ', []),
   ('Ь', []), ('ь', [])]

def chuvMap (c : Char) : Option (List Char) := assocLookup c chuvPairs

/-- First group of the soft-sign regex: `[А-Яа-яЁёӐӑӖӗҪҫӲӳ]`
(А-Яа-я is the contiguous block 0x410–0x44F). -/
def softEligible (c : Char) : Bool :=
  (0x410 ≤ c.toNat && c.toNat ≤ 0x44F) ||
  c = 'Ё' || c = 'ё' || c = 'Ӑ' || c = 'ӑ' || c = 'Ӗ' || c = 'ӗ' ||
  c = 'Ҫ' || c = 'ҫ' || c = 'Ӳ' || c = 'ӳ'

/-- Is the character a soft sign (either case)? -/
def isSoftSign (c : Char) : Bool := c = 'ь' || c = 'Ь'

/-- `process_soft_sign`: replace each leftmost non-overlapping occurrence of
an eligible letter followed by a soft sign with the letter doubled
(`re.sub` scanning left to right, resuming after each replaced match). -/
def process_soft_sign : List Char → List Char
  | [] => []
  | [c] => [c]
  | a :: b :: rest =>
    if softEligible a && isSoftSign b then a :: a :: process_soft_sign rest
    else a :: process_soft_sign (b :: rest)

/-- `is_consonant`: membership in the consonant string of the source. -/
def is_consonant (c : Char) : Bool :=
  c ∈ ['Б', 'В', 'Г', 'Д', 'Ж', 'З', 'Й', 'К', 'Л', 'М', 'Н', 'П', 'Р', 'С',
       'Ҫ', 'Т', 'Ф', 'Х', 'Ц', 'Ч', 'Ш', 'Щ',
       'б', 'в', 'г', 'д', 'ж', 'з', 'й', 'к', 'л', 'м', 'н', 'п', 'р', 'с',
       'ҫ', 'т', 'ф', 'х', 'ц', 'ч', 'ш', 'щ']

/-- `i > 0 and self.is_consonant(word[i-1])`: the previous character (the one
before the current position) is a consonant. -/
def prevCons : Option Char → Bool
  | some p => is_consonant p
  | none => false

/-- The per-character emission of `handle_iotation`: `prev` is `word[i-1]`
(none at position 0). -/
def iotUnit (prev : Option Char) (char : Char) : List Char :=
  if char = 'е' ∨ char = 'Е' then
    if prevCons prev then (if pyIsUpper char then ['E'] else ['e'])
    else (if pyIsUpper char then ['J', 'e'] else ['j', 'e'])
  else if char = 'ё' ∨ char = 'Ё' then
    if prevCons prev then (if pyIsUpper char then ['Ö'] else ['ö'])
    else (if pyIsUpper char then ['J', 'o'] else ['j', 'o'])
  else if char = 'ю' ∨ char = 'Ю' then
    if prevCons prev then (if pyIsUpper char then ['Ü'] else ['ü'])
    else (if pyIsUpper char then ['J', 'u'] else ['j', 'u'])
  else if char = 'я' ∨ char = 'Я' then
    if prevCons prev then (if pyIsUpper char then ['Ä'] else ['ä'])
    else (if pyIsUpper char then ['J', 'a'] else ['j', 'a'])
  else [char]

/-- The `for i, char in enumerate(word)` loop of `handle_iotation`, carrying
the previous character. -/
def iotAux : Option Char → List Char → List Char
  | _, [] => []
  | prev, char :: rest => iotUnit prev char ++ iotAux (some char) rest

/-- `handle_iotation`. -/
def handle_iotation (word : List Char) : List Char := iotAux none word

/-- Stage 3 of `transliterate_word`: character-by-character mapping,
unmapped characters kept as-is (`self.map.get(char, char)`). -/
def mapStage (l : List Char) : List Char :=
  (l.map (fun char => (chuvMap char).getD [char])).flatten

/-- `ChuvashTransliterator.transliterate_word`: soft signs, then iotation,
then the character map. -/
def transliterate_word (word : List Char) : List Char :=
  if word = [] then word
  else mapStage (handle_iotation (process_soft_sign word))

/-- `re.search(r'[а-яёӑӗҫӳ]', token, re.IGNORECASE)` per character: the
Russian class (which under full case folding includes U+1C80–U+1C86) plus
the four Chuvash letters ӑ / ӗ / ҫ / ӳ in either case. -/
def detectChuv (c : Char) : Bool :=
  RussianTransliterator.detectRus c ||
  c.toNat = 0x4D1 || c.toNat = 0x4D0 || c.toNat = 0x4D7 || c.toNat = 0x4D6 ||
  c.toNat = 0x4AB || c.toNat = 0x4AA || c.toNat = 0x4F3 || c.toNat = 0x4F2

/-- The per-token processing of `transliterate`: a token containing a letter
of the (extended) source alphabet is transliterated, the rest pass through. -/
def processToken (t : Token) : List Char :=
  if t.chars.any detectChuv then transliterate_word t.chars else t.chars

/-- `ChuvashTransliterator.transliterate`. -/
def transliterate (text : List Char) : List Char :=
  if text = [] then text
  else ((tokenize text).map processToken).flatten

end ChuvashTransliterator

/-!
## Tokenizer facts shared by the claims
-/

/-- Every white-space code of the separator class lies below the Cyrillic
block, is the Ogham space mark, or lies at or above the general punctuation
block — in particular outside the Cyrillic Extended-C letters. -/
theorem ws_code_range :
    ∀ k ∈ pyWhitespaceCodes, k < 0x401 ∨ k = 0x1680 ∨ 0x2000 ≤ k := by
  decide

theorem sepChar_toNat {c : Char} (h : sepChar c = true) :
    c.toNat < 0x401 ∨ c.toNat = 0x1680 ∨ 0x2000 ≤ c.toNat := by
  simp only [sepChar, Bool.or_eq_true, pyWhitespace, decide_eq_true_eq] at h
  rcases h with (((h | h) | h) | h) | h
  · exact ws_code_range _ h
  · subst h; left; decide
  · subst h; left; decide
  · subst h; left; decide
  · subst h; left; decide

/-- A separator character is never detected as a source-alphabet letter. -/
theorem sepChar_not_detect {c : Char} (h : sepChar c = true) :
    RussianTransliterator.detectRus c = false ∧
    ChuvashTransliterator.detectChuv c = false := by
  have hr := sepChar_toNat h
  constructor
  · cases hb : RussianTransliterator.detectRus c
    · rfl
    · exfalso
      simp only [RussianTransliterator.detectRus, Bool.or_eq_true,
        Bool.and_eq_true, decide_eq_true_eq] at hb
      omega
  · cases hb : ChuvashTransliterator.detectChuv c
    · rfl
    · exfalso
      simp only [ChuvashTransliterator.detectChuv,
        RussianTransliterator.detectRus, Bool.or_eq_true, Bool.and_eq_true,
        decide_eq_true_eq] at hb
      omega

/-- Structure of the token list: every token is a nonempty run of characters
of its declared class, and consecutive tokens alternate between separator and
word class (hence each run is maximal). -/
theorem tokenize_spec (s : List Char) :
    (∀ t ∈ tokenize s, t.chars ≠ [] ∧ ∀ c ∈ t.chars, sepChar c = t.isSep) ∧
    (tokenize s).Chain' (fun a b => a.isSep ≠ b.isSep) := by
  cases s with
  | nil =>
    constructor
    · intro t ht; simp [tokenize] at ht
    · simp [tokenize]
  | cons c cs =>
    have h := tokAux_spec cs [c] (sepChar c) (by simp)
      (by intro x hx; simp at hx; subst hx; rfl)
    exact ⟨h.1, h.2.1⟩

/-- The characters of every token come from the input string. -/
theorem tokenize_chars_mem {s : List Char} {t : Token} (ht : t ∈ tokenize s) :
    ∀ c ∈ t.chars, c ∈ s := by
  intro c hc
  have := tokenize_join s
  rw [← this]
  exact List.mem_flatten.mpr ⟨t.chars, List.mem_map_of_mem Token.chars ht, hc⟩

/-!
## Claim C1 — lossless tokenization
-/

/-- C1: for every input string, concatenating all word and separator tokens
produced by the tokenizer, in their original order, reproduces the input
string exactly; empty input yields an empty token sequence; and every
separator token is passed through unchanged by the per-token processing of
both transliterate operations, so transliterate never loses or reorders
separator spans. -/
theorem C1_lossless_tokenization :
    (∀ s : List Char, ((tokenize s).map Token.chars).flatten = s) ∧
    tokenize [] = [] ∧
    (∀ s : List Char, ∀ t ∈ tokenize s, t.isSep = true →
      RussianTransliterator.processToken t = t.chars ∧
      ChuvashTransliterator.processToken t = t.chars) := by
  refine ⟨tokenize_join, rfl, ?_⟩
  intro s t ht hsep
  have hclass := ((tokenize_spec s).1 t ht).2
  have hany_r : t.chars.any RussianTransliterator.detectRus = false := by
    rw [List.any_eq_false]
    intro c hc
    have := (sepChar_not_detect (by rw [hclass c hc, hsep])).1
    simp [this]
  have hany_c : t.chars.any ChuvashTransliterator.detectChuv = false := by
    rw [List.any_eq_false]
    intro c hc
    have := (sepChar_not_detect (by rw [hclass c hc, hsep])).2
    simp [this]
  constructor
  · unfold RussianTransliterator.processToken
    rw [hany_r]
    simp
  · unfold ChuvashTransliterator.processToken
    rw [hany_c]
    simp

/-- Witness for C1 at a concrete input: in `"а б"` the blank is a separator
token and passes through both engines unchanged. -/
theorem C1_lossless_tokenization_witness :
    (⟨true, [' ']⟩ : Token) ∈ tokenize ['а', ' ', 'б'] ∧
    RussianTransliterator.processToken ⟨true, [' ']⟩ = [' '] :=
  ⟨by decide,
   (C1_lossless_tokenization.2.2 ['а', ' ', 'б'] ⟨true, [' ']⟩ (by decide) rfl).1⟩

/-!
## Claim C3 — the -ый suffix rule
-/

namespace RussianTransliterator

/-- The fuel bound of `rusTWF` is irrelevant once it covers the word length
(each recursive call strips two characters). -/
theorem rusTWF_fuel : ∀ (f1 : Nat) (w : List Char) (f2 : Nat),
    w.length ≤ f1 → w.length ≤ f2 → rusTWF f1 w = rusTWF f2 w := by
  intro f1
  induction f1 with
  | zero =>
    intro w f2 h1 _
    have : w = [] := List.eq_nil_of_length_eq_zero (Nat.le_zero.mp h1)
    subst this
    cases f2 <;> rfl
  | succ g ih =>
    intro w f2 h1 h2
    cases w with
    | nil => cases f2 <;> rfl
    | cons c cs =>
      cases f2 with
      | zero => simp at h2
      | succ g2 =>
        simp only [rusTWF]
        by_cases he : endsYj ((c :: cs).map pyLower) = true
        · rw [if_pos he, if_pos he]
          congr 1
          simp only [List.length_cons] at h1 h2
          refine ih _ _ ?_ ?_ <;>
            simp only [List.length_take, List.length_cons] <;> omega
        · rw [if_neg he, if_neg he]

end RussianTransliterator

/-- C3: for every word whose case-folded form ends in "ый",
`transliterate_word` returns the transliteration of the word minus that
suffix with a literal "y" appended.  The self-recursion is total: it is
realised below as a fuel-indexed function whose fuel, the word length, always
suffices because each recursive call strips two characters. -/
theorem C3_suffix_rule (w : List Char)
    (h : RussianTransliterator.endsYj (w.map pyLower) = true) :
    RussianTransliterator.transliterate_word w =
      RussianTransliterator.transliterate_word (w.take (w.length - 2)) ++ ['y'] := by
  cases w with
  | nil => simp [RussianTransliterator.endsYj] at h
  | cons c cs =>
    unfold RussianTransliterator.transliterate_word
    show RussianTransliterator.rusTWF (cs.length + 1) (c :: cs) = _
    simp only [RussianTransliterator.rusTWF]
    rw [if_pos h]
    congr 1
    refine RussianTransliterator.rusTWF_fuel _ _ _ ?_ ?_ <;>
      simp only [List.length_take, List.length_cons] <;> omega

/-- Witness for C3: the word "красный". -/
theorem C3_suffix_rule_witness :
    RussianTransliterator.endsYj (['к', 'р', 'а', 'с', 'н', 'ы', 'й'].map pyLower) = true ∧
    RussianTransliterator.transliterate_word ['к', 'р', 'а', 'с', 'н', 'ы', 'й'] =
      RussianTransliterator.transliterate_word
        (['к', 'р', 'а', 'с', 'н', 'ы', 'й'].take 5) ++ ['y'] :=
  ⟨by decide, C3_suffix_rule ['к', 'р', 'а', 'с', 'н', 'ы', 'й'] (by decide)⟩

/-!
## Claim C4 — the soft/hard sign rule
-/

namespace RussianTransliterator

theorem signVowelStep_none (i : Nat) (acc1 : List (List Char)) :
    signVowelStep i acc1 none = (i + 1, acc1) := rfl

theorem signVowelStep_else (i : Nat) (acc1 : List (List Char)) (n : Char)
    (hn : n ∉ ['а', 'э', 'ы', 'о', 'у', 'и', 'ю', 'я', 'ё', 'е']) :
    signVowelStep i acc1 (some n) = (i + 1, acc1) := by
  simp only [List.mem_cons, List.not_mem_nil, or_false, not_or] at hn
  obtain ⟨m1, m2, m3, m4, m5, m6, m7, m8, m9, m10⟩ := hn
  simp only [signVowelStep]
  rw [if_neg (by tauto), if_neg m7, if_neg m8, if_neg m9, if_neg m10]

end RussianTransliterator

/-- C4: at every position of a word where the current character is a soft or
hard sign preceded by a consonant, the transducer step first (for a soft
sign) re-emits the mapped form of the preceding consonant, then: if the
following character is one of а/э/ы/о/у/и it emits "i" followed by that
character's static mapping and advances two positions; if the following
character is ю/я/ё/е it emits "i" followed by the corresponding base vowel
u/a/o/e and advances two; otherwise it emits nothing further and advances
one. -/
theorem C4_sign_rule (lw : List Char) (i : Nat) (acc : List (List Char))
    (ch p : Char)
    (hch : lw.get? i = some ch) (hsign : ch = 'ь' ∨ ch = 'ъ')
    (hp : RussianTransliterator.prevAt lw i = some p)
    (hcons : RussianTransliterator.rusConsonant p = true) :
    (∀ n, RussianTransliterator.nextAt lw i = some n →
      (n = 'а' ∨ n = 'э' ∨ n = 'ы' ∨ n = 'о' ∨ n = 'у' ∨ n = 'и') →
      RussianTransliterator.rusStep lw i acc =
        (i + 2, RussianTransliterator.dupAcc acc (ch = 'ь') p ++
          ['i' :: (RussianTransliterator.rusMap n).getD []])) ∧
    (∀ n b, RussianTransliterator.nextAt lw i = some n →
      (n, b) ∈ [('ю', 'u'), ('я', 'a'), ('ё', 'o'), ('е', 'e')] →
      RussianTransliterator.rusStep lw i acc =
        (i + 2, RussianTransliterator.dupAcc acc (ch = 'ь') p ++ [['i'], [b]])) ∧
    ((∀ n, RussianTransliterator.nextAt lw i = some n →
        n ∉ ['а', 'э', 'ы', 'о', 'у', 'и', 'ю', 'я', 'ё', 'е']) →
      RussianTransliterator.rusStep lw i acc =
        (i + 1, RussianTransliterator.dupAcc acc (ch = 'ь') p)) := by
  have hstep : RussianTransliterator.rusStep lw i acc =
      RussianTransliterator.signVowelStep i
        (RussianTransliterator.dupAcc acc (ch = 'ь') p)
        (RussianTransliterator.nextAt lw i) := by
    unfold RussianTransliterator.rusStep
    rw [hch]
    show RussianTransliterator.rusStepCh lw i acc ch = _
    rw [RussianTransliterator.rusStepCh_sign lw i acc ch hsign]
    unfold RussianTransliterator.signStep
    rw [hp]
    simp only [hcons, if_pos]
  refine ⟨?_, ?_, ?_⟩
  · intro n hn hv
    rw [hstep, hn]
    simp only [RussianTransliterator.signVowelStep]
    rw [if_pos hv]
  · intro n b hn hv
    rw [hstep, hn]
    fin_cases hv <;> simp [RussianTransliterator.signVowelStep]
  · intro hnone
    rw [hstep]
    cases hn : RussianTransliterator.nextAt lw i with
    | none => exact RussianTransliterator.signVowelStep_none i _
    | some n => exact RussianTransliterator.signVowelStep_else i _ n (hnone n hn)

/-- Witness for C4: in the word "нья" the soft sign at index 1 is preceded by
the consonant н and followed by я, so the step duplicates the mapped н, emits
"i" and the base vowel "a", and advances to index 3. -/
theorem C4_sign_rule_witness :
    RussianTransliterator.rusStep ['н', 'ь', 'я'] 1 [] = (3, [['n'], ['i'], ['a']]) := by
  have h := (C4_sign_rule ['н', 'ь', 'я'] 1 [] 'ь' 'н' (by decide) (Or.inl rfl)
    (by decide) (by decide)).2.1 'я' 'a' (by decide) (by decide)
  rw [h]
  decide

/-!
## Claim C6 — passthrough

The claim quantifies over inputs with "no source-alphabet letters": no basic
Cyrillic letters for the Russian variant, none of those plus the four
Chuvash-specific letters for the Chuvash variant.  The two predicates below
render that hypothesis literally from the claim's words; they are
specification-side, to be compared with the detectors the code actually
applies (`detectRus` / `detectChuv`), which under `re.IGNORECASE` full case
folding additionally match the Cyrillic Extended-C letters U+1C80–U+1C86.
-/

/-- Specification-side class of the claim: a basic Cyrillic letter
(а-я, А-Я, ё, Ё). -/
def specBasicCyrillic (c : Char) : Bool :=
  (0x430 ≤ c.toNat && c.toNat ≤ 0x44F) || c.toNat = 0x451 ||
  (0x410 ≤ c.toNat && c.toNat ≤ 0x42F) || c.toNat = 0x401

/-- Specification-side class of the claim for the Chuvash variant: a basic
Cyrillic letter or one of the four Chuvash-specific letters (either case). -/
def specChuvashAlphabet (c : Char) : Bool :=
  specBasicCyrillic c ||
  c.toNat = 0x4D1 || c.toNat = 0x4D0 || c.toNat = 0x4D7 || c.toNat = 0x4D6 ||
  c.toNat = 0x4AB || c.toNat = 0x4AA || c.toNat = 0x4F3 || c.toNat = 0x4F2

/-- C6 counterexample: an input with no source-alphabet letter of the
selected variant is NOT always returned unchanged.  The detection regexes
run under `re.IGNORECASE`, which matches by full case folding, so `[а-яё]`
also matches the Cyrillic Extended-C letter ᲀ (U+1C80, case fold в): the
string "xXᲀ" contains no basic Cyrillic letter, yet the word token is
detected via ᲀ, case-folded, and returned as "xxᲀ". -/
theorem C6_passthrough_counterexample :
    ¬ ((∀ s : List Char, (∀ c ∈ s, specBasicCyrillic c = false) →
          RussianTransliterator.transliterate s = s) ∧
       (∀ s : List Char, (∀ c ∈ s, specChuvashAlphabet c = false) →
          ChuvashTransliterator.transliterate s = s)) := by
  intro h
  exact absurd (h.1 ['x', 'X', 'ᲀ'] (by decide)) (by decide)

/-- C6 (amended): an input none of whose characters is matched by the
variant's detection regex — under case-insensitive matching, the basic
Cyrillic letters and U+1C80–U+1C86, plus ӑ/ӗ/ҫ/ӳ in either case for the
Chuvash variant — is returned unchanged; moreover every individual token
failing script detection is passed through unchanged, so the detector
performs no mutation. -/
theorem C6_passthrough_amended :
    (∀ s : List Char, (∀ c ∈ s, RussianTransliterator.detectRus c = false) →
      RussianTransliterator.transliterate s = s) ∧
    (∀ s : List Char, (∀ c ∈ s, ChuvashTransliterator.detectChuv c = false) →
      ChuvashTransliterator.transliterate s = s) ∧
    (∀ t : Token, t.chars.any RussianTransliterator.detectRus = false →
      RussianTransliterator.processToken t = t.chars) ∧
    (∀ t : Token, t.chars.any ChuvashTransliterator.detectChuv = false →
      ChuvashTransliterator.processToken t = t.chars) := by
  refine ⟨?_, ?_, ?_, ?_⟩
  · intro s hs
    unfold RussianTransliterator.transliterate
    by_cases hnil : s = []
    · rw [if_pos hnil]
    · rw [if_neg hnil]
      have hmap : (tokenize s).map RussianTransliterator.processToken =
          (tokenize s).map Token.chars := by
        rw [List.map_eq_map_iff]
        intro t ht
        have hany : t.chars.any RussianTransliterator.detectRus = false :=
          List.any_eq_false.mpr fun c hc => by
            simp [hs c (tokenize_chars_mem ht c hc)]
        unfold RussianTransliterator.processToken
        rw [hany]
        simp
      rw [hmap, tokenize_join]
  · intro s hs
    unfold ChuvashTransliterator.transliterate
    by_cases hnil : s = []
    · rw [if_pos hnil]
    · rw [if_neg hnil]
      have hmap : (tokenize s).map ChuvashTransliterator.processToken =
          (tokenize s).map Token.chars := by
        rw [List.map_eq_map_iff]
        intro t ht
        have hany : t.chars.any ChuvashTransliterator.detectChuv = false :=
          List.any_eq_false.mpr fun c hc => by
            simp [hs c (tokenize_chars_mem ht c hc)]
        unfold ChuvashTransliterator.processToken
        rw [hany]
        simp
      rw [hmap, tokenize_join]
  · intro t ht
    unfold RussianTransliterator.processToken
    rw [ht]
    simp
  · intro t ht
    unfold ChuvashTransliterator.processToken
    rw [ht]
    simp

/-- Witness for C6 (amended): a Latin-and-punctuation string passes
through. -/
theorem C6_passthrough_amended_witness :
    (∀ c ∈ ['h', 'i', '!'], RussianTransliterator.detectRus c = false) ∧
    RussianTransliterator.transliterate ['h', 'i', '!'] = ['h', 'i', '!'] :=
  ⟨by decide, C6_passthrough_amended.1 ['h', 'i', '!'] (by decide)⟩

/-!
## Claim C8 — Chuvash soft-sign resolution

The specification describes `process_soft_sign` as a pure string
substitution: every occurrence of a soft sign immediately preceded by an
eligible letter is replaced by a duplicate of that preceding letter.  The
specification-side function below renders this literally as
"find the leftmost occurrence, substitute, continue after it" — the meaning
of a (non-overlapping) string substitution, and of `re.sub`.
-/

namespace ChuvashTransliterator

/-- Index of the leftmost occurrence of an eligible letter followed by a
soft sign. -/
def findPair : List Char → Option Nat
  | a :: b :: rest =>
    if softEligible a && isSoftSign b then some 0
    else (findPair (b :: rest)).map (· + 1)
  | _ => none

theorem findPair_bound : ∀ (l : List Char) (k : Nat),
    findPair l = some k → k + 2 ≤ l.length := by
  intro l
  induction l with
  | nil => intro k h; simp [findPair] at h
  | cons a t ih =>
    cases t with
    | nil => intro k h; simp [findPair] at h
    | cons b rest =>
      intro k h
      by_cases hp : softEligible a && isSoftSign b
      · simp [findPair, hp] at h
        subst h
        simp
      · simp only [findPair, if_neg hp, Option.map_eq_some'] at h
        obtain ⟨k', hk', rfl⟩ := h
        have := ih k' hk'
        simp only [List.length_cons] at this ⊢
        omega

/-- Specification-side soft-sign substitution: replace the leftmost
(eligible letter)(soft sign) occurrence by the doubled letter and continue
after the replaced span. -/
def spec_softSub (l : List Char) : List Char :=
  match hf : findPair l with
  | none => l
  | some k => l.take k ++ [l.getD k ' ', l.getD k ' '] ++ spec_softSub (l.drop (k + 2))
termination_by l.length
decreasing_by
  have := findPair_bound l k hf
  simp only [List.length_drop]
  omega

theorem spec_softSub_none {l : List Char} (h : findPair l = none) :
    spec_softSub l = l := by
  rw [spec_softSub, h]

theorem spec_softSub_some {l : List Char} {k : Nat} (h : findPair l = some k) :
    spec_softSub l = l.take k ++ [l.getD k ' ', l.getD k ' '] ++
      spec_softSub (l.drop (k + 2)) := by
  rw [spec_softSub, h]

end ChuvashTransliterator

/-- C8: `process_soft_sign` is exactly the substitution pass the
specification describes — every (leftmost, non-overlapping) occurrence of a
soft sign immediately preceded by an eligible letter is replaced by a
duplicate of that letter, the soft sign itself deleted — and on "пирень" it
yields "пиренн". -/
theorem C8_soft_sign_resolution :
    (∀ l : List Char,
      ChuvashTransliterator.process_soft_sign l =
        ChuvashTransliterator.spec_softSub l) ∧
    ChuvashTransliterator.process_soft_sign ['п', 'и', 'р', 'е', 'н', 'ь'] =
      ['п', 'и', 'р', 'е', 'н', 'н'] := by
  constructor
  · intro l
    generalize hn : l.length = n
    induction n using Nat.strong_induction_on generalizing l with
    | _ n ih =>
      match l with
      | [] => rw [ChuvashTransliterator.spec_softSub_none (by simp [ChuvashTransliterator.findPair])]; rfl
      | [c] => rw [ChuvashTransliterator.spec_softSub_none (by simp [ChuvashTransliterator.findPair])]; rfl
      | a :: b :: rest =>
        subst hn
        by_cases hp : (ChuvashTransliterator.softEligible a &&
            ChuvashTransliterator.isSoftSign b) = true
        · have hf : ChuvashTransliterator.findPair (a :: b :: rest) = some 0 := by
            simp [ChuvashTransliterator.findPair, hp]
          rw [ChuvashTransliterator.spec_softSub_some hf]
          simp only [List.take_zero, List.getD_cons_zero, List.drop_succ_cons,
            List.drop_zero, List.nil_append]
          show ChuvashTransliterator.process_soft_sign (a :: b :: rest) = _
          unfold ChuvashTransliterator.process_soft_sign
          rw [if_pos hp]
          have := ih rest.length (by simp only [List.length_cons]; omega) rest rfl
          rw [this]
          rfl
        · show ChuvashTransliterator.process_soft_sign (a :: b :: rest) = _
          unfold ChuvashTransliterator.process_soft_sign
          rw [if_neg hp]
          have hrec := ih (b :: rest).length (by simp only [List.length_cons]; omega) (b :: rest) rfl
          cases hfb : ChuvashTransliterator.findPair (b :: rest) with
          | none =>
            have hf : ChuvashTransliterator.findPair (a :: b :: rest) = none := by
              simp [ChuvashTransliterator.findPair, hp, hfb]
            rw [ChuvashTransliterator.spec_softSub_none hf]
            rw [hrec, ChuvashTransliterator.spec_softSub_none hfb]
          | some k =>
            have hf : ChuvashTransliterator.findPair (a :: b :: rest) = some (k + 1) := by
              simp [ChuvashTransliterator.findPair, hp, hfb]
            rw [ChuvashTransliterator.spec_softSub_some hf]
            rw [hrec, ChuvashTransliterator.spec_softSub_some hfb]
            simp only [List.take_succ_cons, List.getD_cons_succ, List.drop_succ_cons,
              List.cons_append]
  · rfl

/-!
## Claim C10 — no soft or hard sign survives Chuvash transliteration
-/

namespace ChuvashTransliterator

/-- A Cyrillic soft or hard sign, either case. -/
def isSign (c : Char) : Bool := c = 'ь' || c = 'Ь' || c = 'ъ' || c = 'Ъ'

/-- Every sign has a mapping entry, namely the empty string. -/
theorem sign_maps_to_empty : ∀ c : Char, isSign c = true → chuvMap c = some [] := by
  intro c h
  simp only [isSign, Bool.or_eq_true, decide_eq_true_eq] at h
  rcases h with ((h | h) | h) | h <;> subst h <;> decide

/-- No value of the Chuvash map contains a sign. -/
theorem chuv_values_no_sign : ∀ p ∈ chuvPairs, ∀ c ∈ p.2, isSign c = false := by
  decide

/-- The character-mapping stage never outputs a sign: mapped characters
contribute sign-free values, and an unmapped character cannot be a sign
because the signs are mapped (to the empty string). -/
theorem mapStage_no_sign (l : List Char) (c : Char) (hc : c ∈ mapStage l) :
    isSign c = false := by
  unfold mapStage at hc
  rw [List.mem_flatten] at hc
  obtain ⟨u, hu, hcu⟩ := hc
  rw [List.mem_map] at hu
  obtain ⟨x, _, rfl⟩ := hu
  cases hmx : chuvMap x with
  | some v =>
    rw [hmx] at hcu
    exact chuv_values_no_sign (x, v) (assocLookup_mem hmx) c hcu
  | none =>
    rw [hmx] at hcu
    simp only [Option.getD_none, List.mem_singleton] at hcu
    subst hcu
    cases hs : isSign c
    · rfl
    · exact absurd (sign_maps_to_empty c hs) (by rw [hmx]; simp)

/-- A sign is detected by the Chuvash script detector. -/
theorem sign_detected {c : Char} (h : isSign c = true) : detectChuv c = true := by
  simp only [isSign, Bool.or_eq_true, decide_eq_true_eq] at h
  rcases h with ((h | h) | h) | h <;> subst h <;> decide

end ChuvashTransliterator

/-- C10: the output of the Chuvash transliterate operation never contains a
soft- or hard-sign character: soft signs preceded by an eligible letter are
consumed by the duplication pass, and any sign reaching the mapping stage is
mapped to the empty string; tokens containing a sign always pass script
detection, and separator tokens cannot contain signs. -/
theorem C10_no_sign_in_output (s : List Char) :
    (ChuvashTransliterator.transliterate s).all
      (fun c => !ChuvashTransliterator.isSign c) = true := by
  rw [List.all_eq_true]
  intro c hc
  suffices h : ChuvashTransliterator.isSign c = false by simp [h]
  unfold ChuvashTransliterator.transliterate at hc
  by_cases hnil : s = []
  · rw [if_pos hnil] at hc
    subst hnil
    simp at hc
  · rw [if_neg hnil] at hc
    rw [List.mem_flatten] at hc
    obtain ⟨u, hu, hcu⟩ := hc
    rw [List.mem_map] at hu
    obtain ⟨t, ht, rfl⟩ := hu
    unfold ChuvashTransliterator.processToken at hcu
    by_cases hdet : t.chars.any ChuvashTransliterator.detectChuv = true
    · rw [if_pos hdet] at hcu
      unfold ChuvashTransliterator.transliterate_word at hcu
      by_cases hw : t.chars = []
      · rw [if_pos hw] at hcu
        rw [hw] at hcu
        simp at hcu
      · rw [if_neg hw] at hcu
        exact ChuvashTransliterator.mapStage_no_sign _ c hcu
    · rw [if_neg hdet] at hcu
      cases hs : ChuvashTransliterator.isSign c
      · rfl
      · exfalso
        exact hdet (List.any_eq_true.mpr
          ⟨c, hcu, ChuvashTransliterator.sign_detected hs⟩)

/-!
## Claim C2 — Chuvash iotation expansion

The specification-side transducer is driven by a rules table, one row per
iotated letter: (letter, contracted form emitted after a consonant, iotated
form emitted otherwise).  `iotTableDot` is the table exactly as the claim
states it (dot-above-e as the contracted form of е); `iotTable` is the table
the code actually implements (plain "e" for е).
-/

namespace ChuvashTransliterator

/-- The iotation rules as the claim states them: the contracted form of е is
dot-above-e. -/
def iotTableDot : List (Char × List Char × List Char) :=
  [('е', ['ė'], ['j', 'e']), ('Е', ['Ė'], ['J', 'e']),
   ('ё', ['ö'], ['j', 'o']), ('Ё', ['Ö'], ['J', 'o']),
   ('ю', ['ü'], ['j', 'u']), ('Ю', ['Ü'], ['J', 'u']),
   ('я', ['ä'], ['j', 'a']), ('Я', ['Ä'], ['J', 'a'])]

/-- The iotation rules with the contracted form the code emits for е:
plain "e". -/
def iotTable : List (Char × List Char × List Char) :=
  [('е', ['e'], ['j', 'e']), ('Е', ['E'], ['J', 'e']),
   ('ё', ['ö'], ['j', 'o']), ('Ё', ['Ö'], ['J', 'o']),
   ('ю', ['ü'], ['j', 'u']), ('Ю', ['Ü'], ['J', 'u']),
   ('я', ['ä'], ['j', 'a']), ('Я', ['Ä'], ['J', 'a'])]

/-- Specification-side per-letter rule: look the letter up in the rules
table; on a hit choose the contracted or the iotated form by whether the
preceding character is a consonant; otherwise emit the letter unchanged. -/
def specIotUnitT (table : List (Char × List Char × List Char))
    (prev : Option Char) (char : Char) : List Char :=
  match assocLookup char table with
  | some (con, iot) => if prevCons prev then con else iot
  | none => [char]

/-- Specification-side iotation pass over a word. -/
def specIotAuxT (table : List (Char × List Char × List Char)) :
    Option Char → List Char → List Char
  | _, [] => []
  | prev, c :: rest => specIotUnitT table prev c ++ specIotAuxT table (some c) rest

/-- The iotation stage as the claim states it (dot-above-e). -/
def specIotationDot (w : List Char) : List Char := specIotAuxT iotTableDot none w

/-- The iotation stage per the amended claim (plain "e"). -/
def specIotation (w : List Char) : List Char := specIotAuxT iotTable none w

/-- The per-letter emission of the code agrees with the table-driven rule of
the amended claim. -/
theorem iotUnit_eq_spec (prev : Option Char) (c : Char) :
    iotUnit prev c = specIotUnitT iotTable prev c := by
  by_cases h1 : c = 'е'
  · subst h1; cases hp : prevCons prev <;>
      (simp [iotUnit, specIotUnitT, assocLookup, hp, iotTable] <;> decide)
  by_cases h2 : c = 'Е'
  · subst h2; cases hp : prevCons prev <;>
      (simp [iotUnit, specIotUnitT, assocLookup, hp, iotTable] <;> decide)
  by_cases h3 : c = 'ё'
  · subst h3; cases hp : prevCons prev <;>
      (simp [iotUnit, specIotUnitT, assocLookup, hp, iotTable] <;> decide)
  by_cases h4 : c = 'Ё'
  · subst h4; cases hp : prevCons prev <;>
      (simp [iotUnit, specIotUnitT, assocLookup, hp, iotTable] <;> decide)
  by_cases h5 : c = 'ю'
  · subst h5; cases hp : prevCons prev <;>
      (simp [iotUnit, specIotUnitT, assocLookup, hp, iotTable] <;> decide)
  by_cases h6 : c = 'Ю'
  · subst h6; cases hp : prevCons prev <;>
      (simp [iotUnit, specIotUnitT, assocLookup, hp, iotTable] <;> decide)
  by_cases h7 : c = 'я'
  · subst h7; cases hp : prevCons prev <;>
      (simp [iotUnit, specIotUnitT, assocLookup, hp, iotTable] <;> decide)
  by_cases h8 : c = 'Я'
  · subst h8; cases hp : prevCons prev <;>
      (simp [iotUnit, specIotUnitT, assocLookup, hp, iotTable] <;> decide)
  · have hno : assocLookup c iotTable = none := by
      apply assocLookup_eq_none
      intro p hp
      fin_cases hp <;> simp <;> (intro hh; subst hh; simp_all)
    have hunit : iotUnit prev c = [c] := by
      unfold iotUnit
      rw [if_neg (by tauto), if_neg (by tauto), if_neg (by tauto), if_neg (by tauto)]
    rw [hunit]
    unfold specIotUnitT
    rw [hno]

end ChuvashTransliterator

/-- C2 counterexample: the claim as stated — iotation with the contracted
form of е being dot-above-e — is false: on the word "те" the code emits
plain "te", not "tė". -/
theorem C2_iotation_counterexample :
    ¬ (∀ w : List Char, ChuvashTransliterator.handle_iotation w =
        ChuvashTransliterator.specIotationDot w) := by
  intro h
  exact absurd (h ['т', 'е']) (by decide)

/-- C2 (amended): the iotation stage implements exactly the table-driven
rule — for each of е/ё/ю/я (either case), if the immediately preceding
character is a consonant emit the single-character contracted form (plain
"e" for е — not dot-above-e — o/u/a-with-diaeresis for ё/ю/я), otherwise the
two-character iotated form je/jo/ju/ja, the case of the emitted form
mirroring the case of the source letter; all other characters pass through
unchanged. -/
theorem C2_iotation_amended : ∀ w : List Char,
    ChuvashTransliterator.handle_iotation w =
      ChuvashTransliterator.specIotation w := by
  intro w
  unfold ChuvashTransliterator.handle_iotation ChuvashTransliterator.specIotation
  generalize none = prev
  induction w generalizing prev with
  | nil => rfl
  | cons c rest ih =>
    show ChuvashTransliterator.iotUnit prev c ++ _ = _
    rw [ChuvashTransliterator.iotUnit_eq_spec, ih]
    rfl

/-!
## Claim C9 — tokenizer classification

The claim describes word tokens as maximal runs of letter/digit/diacritic
characters and separator tokens as maximal runs of whitespace plus the
punctuation set comma, period, exclamation mark, question mark, em-dash.
The separator class the code compiles is `[\s,.!?]` — the em-dash is not in
it, so an em-dash lands inside a word token.
-/

/-- Letter/digit/diacritic characters, as the claim's word-character class:
ASCII letters and digits, the Cyrillic block (including the Chuvash
letters), accented Latin letters, and combining diacritical marks. -/
def specWordChar (c : Char) : Bool :=
  (0x30 ≤ c.toNat && c.toNat ≤ 0x39) ||
  (0x41 ≤ c.toNat && c.toNat ≤ 0x5A) ||
  (0x61 ≤ c.toNat && c.toNat ≤ 0x7A) ||
  (0xC0 ≤ c.toNat && c.toNat ≤ 0x17F) ||
  (0x300 ≤ c.toNat && c.toNat ≤ 0x36F) ||
  (0x400 ≤ c.toNat && c.toNat ≤ 0x4FF)

/-- The separator class the claim states: whitespace plus comma, period,
exclamation mark, question mark and em-dash. -/
def specSepChar (c : Char) : Bool :=
  pyWhitespace c || c = ',' || c = '.' || c = '!' || c = '?' || c = '—'

/-- C9 counterexample: the claim as stated is false — on input "a—b" the
tokenizer produces the single word token "a—b", and the em-dash it contains
is not a letter/digit/diacritic character (it belongs to the claim's
separator set instead). -/
theorem C9_tokenizer_counterexample :
    ¬ (∀ s : List Char, ∀ t ∈ tokenize s,
        (t.isSep = false → t.chars.all specWordChar = true) ∧
        (t.isSep = true → t.chars.all specSepChar = true)) := by
  intro h
  have := (h ['a', '—', 'b'] ⟨false, ['a', '—', 'b']⟩ (by decide)).1 rfl
  exact absurd this (by decide)

/-- C9 (amended): every token is a nonempty maximal run of a single
character class — `Separator` tokens are runs of the tokenizer's separator
class (whitespace and the punctuation set comma, period, exclamation mark,
question mark — the em-dash is *not* a separator), `Word` tokens are runs of
all remaining characters, and consecutive tokens alternate classes, which
makes every run maximal. -/
theorem C9_tokenizer_amended (s : List Char) :
    (∀ t ∈ tokenize s, t.chars ≠ [] ∧ ∀ c ∈ t.chars, sepChar c = t.isSep) ∧
    (tokenize s).Chain' (fun a b => a.isSep ≠ b.isSep) ∧
    sepChar '—' = false :=
  ⟨(tokenize_spec s).1, (tokenize_spec s).2, by decide⟩

/-- Witness for C9 (amended) at "a—b": the whole input is one word token and
the em-dash it contains is classified as a non-separator. -/
theorem C9_tokenizer_amended_witness :
    (⟨false, ['a', '—', 'b']⟩ : Token) ∈ tokenize ['a', '—', 'b'] ∧
    sepChar '—' = false :=
  ⟨by decide,
   ((C9_tokenizer_amended ['a', '—', 'b']).1 ⟨false, ['a', '—', 'b']⟩
     (by decide)).2 '—' (by decide)⟩

/-!
## Claim C5 — case policy

Russian side: the word transducer runs on the case-folded word, so the
output depends only on the folded word and on whether the original first
character was uppercase; when it was, the whole transliterated word is
capitalized (first character up, all others down).  Chuvash side: case is
handled per letter, but the multi-character emissions (Je/Jo/Ju/Ja, Ts) are
capitalized only on their first letter, so an all-caps word need not come
out all-caps.
-/

namespace RussianTransliterator

/-- `headUpper` is preserved by taking a nonempty prefix. -/
theorem headUpper_take {l : List Char} {k : Nat} (hk : 0 < k) :
    headUpper (l.take k) = headUpper l := by
  cases l with
  | nil => simp
  | cons c cs =>
    cases k with
    | zero => exact absurd hk (by simp)
    | succ j => rfl

/-- The transducer output depends only on the case-folded word and the case
of the first character: interior casing is irrelevant. -/
theorem rusTWF_case_fold : ∀ (fuel : Nat) (w v : List Char),
    w.map pyLower = v.map pyLower → headUpper w = headUpper v →
    rusTWF fuel w = rusTWF fuel v := by
  intro fuel
  induction fuel with
  | zero => intro w v _ _; cases w <;> cases v <;> rfl
  | succ g ih =>
    intro w v hlow hhead
    have hlen : w.length = v.length := by
      have := congrArg List.length hlow
      simpa using this
    cases w with
    | nil =>
      cases v with
      | nil => rfl
      | cons d ds => simp at hlen
    | cons c cs =>
      cases v with
      | nil => simp at hlen
      | cons d ds =>
        simp only [rusTWF]
        rw [hlow, hhead, hlen]
        by_cases he : endsYj ((d :: ds).map pyLower) = true
        · rw [if_pos he, if_pos he]
          congr 1
          by_cases hk : (d :: ds).length - 2 = 0
          · rw [hk]
            simp
          · apply ih
            · rw [List.map_take, List.map_take, hlow]
            · rw [headUpper_take (Nat.pos_of_ne_zero hk),
                headUpper_take (Nat.pos_of_ne_zero hk), hhead]
        · rw [if_neg he, if_neg he]
end RussianTransliterator

namespace RussianTransliterator

theorem rusPairs_values_ne_nil : ∀ p ∈ rusPairs, p.2 ≠ [] := by decide

theorem rusMap_getD_ne_nil (p : Char) : (rusMap p).getD [p] ≠ [] := by
  cases h : rusMap p with
  | none => simp
  | some v => simpa using rusPairs_values_ne_nil (p, v) (assocLookup_mem h)

theorem iUnit_ne_nil (prev next : Option Char) : iUnit prev next ≠ [] := by
  unfold iUnit
  split_ifs <;> simp

theorem yaUnit_ne_nil (prev : Option Char) : yaUnit prev ≠ [] := by
  unfold yaUnit
  split_ifs <;> simp

theorem yoUnit_ne_nil (prev : Option Char) : yoUnit prev ≠ [] := by
  unfold yoUnit
  split_ifs <;> simp

theorem yuUnit_ne_nil (prev : Option Char) : yuUnit prev ≠ [] := by
  unfold yuUnit
  split_ifs <;> simp

theorem units_append {acc us : List (List Char)}
    (h : ∀ u ∈ acc, u ≠ []) (hus : ∀ u ∈ us, u ≠ []) : ∀ u ∈ acc ++ us, u ≠ [] := by
  intro u hu
  rcases List.mem_append.mp hu with h1 | h1
  · exact h u h1
  · exact hus u h1

theorem dupAcc_pres {acc : List (List Char)} {b : Bool} {p : Char}
    (h : ∀ u ∈ acc, u ≠ []) :
    (∀ u ∈ dupAcc acc b p, u ≠ []) ∧ (dupAcc acc b p = [] → acc = []) := by
  unfold dupAcc
  cases b
  · exact ⟨h, fun hh => hh⟩
  · refine ⟨units_append h ?_, by simp⟩
    intro u hu
    simp only [List.mem_singleton] at hu
    subst hu
    exact rusMap_getD_ne_nil p

theorem signVowelStep_pres (i : Nat) (acc1 : List (List Char)) (next : Option Char)
    (h : ∀ u ∈ acc1, u ≠ []) :
    (∀ u ∈ (signVowelStep i acc1 next).2, u ≠ []) ∧
    ((signVowelStep i acc1 next).2 = [] → acc1 = []) := by
  rcases next with _ | n
  · exact ⟨h, fun hh => hh⟩
  · unfold signVowelStep
    dsimp only
    split_ifs
    · exact ⟨units_append h (by intro u hu; fin_cases hu <;> simp), by simp⟩
    · exact ⟨units_append h (by intro u hu; fin_cases hu <;> simp), by simp⟩
    · exact ⟨units_append h (by intro u hu; fin_cases hu <;> simp), by simp⟩
    · exact ⟨units_append h (by intro u hu; fin_cases hu <;> simp), by simp⟩
    · exact ⟨units_append h (by intro u hu; fin_cases hu <;> simp), by simp⟩
    · exact ⟨h, fun hh => hh⟩

theorem signStep_pres (lw : List Char) (i : Nat) (acc : List (List Char)) (ch : Char)
    (h : ∀ u ∈ acc, u ≠ []) :
    (∀ u ∈ (signStep lw i acc ch).2, u ≠ []) ∧
    ((signStep lw i acc ch).2 = [] → acc = []) := by
  unfold signStep
  cases prevAt lw i with
  | none =>
    exact ⟨units_append h (by intro u hu; fin_cases hu <;> simp), by simp⟩
  | some p =>
    dsimp only
    split
    · have hd := dupAcc_pres (b := (ch = 'ь')) (p := p) h
      have hs := signVowelStep_pres i (dupAcc acc (ch = 'ь') p) (nextAt lw i) hd.1
      exact ⟨hs.1, fun hh => hd.2 (hs.2 hh)⟩
    · exact ⟨units_append h (by intro u hu; fin_cases hu <;> simp), by simp⟩

theorem rusStep_pres (lw : List Char) (i : Nat) (acc : List (List Char))
    (h : ∀ u ∈ acc, u ≠ []) :
    (∀ u ∈ (rusStep lw i acc).2, u ≠ []) ∧
    ((rusStep lw i acc).2 = [] → acc = []) := by
  unfold rusStep
  rcases hg : lw.get? i with _ | ch
  · exact ⟨h, fun hh => hh⟩
  · show (∀ u ∈ (rusStepCh lw i acc ch).2, u ≠ []) ∧
      ((rusStepCh lw i acc ch).2 = [] → acc = [])
    by_cases h1 : ch = 'и'
    · subst h1
      by_cases h2 : nextAt lw i = some 'я' ∨ nextAt lw i = some 'ё' ∨ nextAt lw i = some 'ю'
      · rw [rusStepCh_iot lw i acc h2]
        refine ⟨units_append h ?_, by simp⟩
        intro u hu
        simp only [List.mem_singleton] at hu
        subst hu
        split_ifs <;> simp
      · rw [rusStepCh_i lw i acc h2]
        refine ⟨units_append h ?_, by simp⟩
        intro u hu
        simp only [List.mem_singleton] at hu
        subst hu
        exact iUnit_ne_nil _ _
    by_cases h2 : ch = 'ь' ∨ ch = 'ъ'
    · rw [rusStepCh_sign lw i acc ch h2]
      exact signStep_pres lw i acc ch h
    by_cases h3 : ch = 'й'
    · subst h3
      rw [rusStepCh_j]
      split_ifs
      · refine ⟨units_append ?_ (by intro u hu; fin_cases hu <;> simp), by simp⟩
        intro u hu
        exact h u ((List.dropLast_sublist acc).subset hu)
      · exact ⟨units_append h (by intro u hu; fin_cases hu <;> simp), by simp⟩
    by_cases h5 : ch = 'я'
    · subst h5
      rw [rusStepCh_ya]
      refine ⟨units_append h ?_, by simp⟩
      intro u hu
      simp only [List.mem_singleton] at hu
      subst hu
      exact yaUnit_ne_nil _
    by_cases h6 : ch = 'ё'
    · subst h6
      rw [rusStepCh_yo]
      refine ⟨units_append h ?_, by simp⟩
      intro u hu
      simp only [List.mem_singleton] at hu
      subst hu
      exact yoUnit_ne_nil _
    by_cases h7 : ch = 'ю'
    · subst h7
      rw [rusStepCh_yu]
      refine ⟨units_append h ?_, by simp⟩
      intro u hu
      simp only [List.mem_singleton] at hu
      subst hu
      exact yuUnit_ne_nil _
    by_cases h8 : ch = 'у'
    · subst h8
      rw [rusStepCh_u]
      refine ⟨units_append h ?_, by simp⟩
      intro u hu
      simp only [List.mem_singleton] at hu
      subst hu
      split_ifs <;> simp
    by_cases h9 : ch = 'а'
    · subst h9
      by_cases hgl : glideCond (prevAt lw i) 'а' = true
      · rw [rusStepCh_a_glide lw i acc hgl]
        exact ⟨units_append h (by intro u hu; fin_cases hu <;> simp), by simp⟩
      · rw [rusStepCh_default lw i acc 'а' (by decide)
          (fun _ => Bool.not_eq_true _ ▸ hgl) (by simp)]
        refine ⟨units_append h ?_, by simp⟩
        intro u hu
        simp only [List.mem_singleton] at hu
        subst hu
        exact rusMap_getD_ne_nil _
    by_cases h10 : ch = 'о'
    · subst h10
      by_cases hgl : glideCond (prevAt lw i) 'о' = true
      · rw [rusStepCh_o_glide lw i acc hgl]
        exact ⟨units_append h (by intro u hu; fin_cases hu <;> simp), by simp⟩
      · rw [rusStepCh_default lw i acc 'о' (by decide) (by simp)
          (fun _ => Bool.not_eq_true _ ▸ hgl)]
        refine ⟨units_append h ?_, by simp⟩
        intro u hu
        simp only [List.mem_singleton] at hu
        subst hu
        exact rusMap_getD_ne_nil _
    · rw [rusStepCh_default lw i acc ch (by simp_all)
        (fun hc => absurd hc h9) (fun hc => absurd hc h10)]
      refine ⟨units_append h ?_, by simp⟩
      intro u hu
      simp only [List.mem_singleton] at hu
      subst hu
      exact rusMap_getD_ne_nil _

/-- The first loop iteration of a nonempty word always emits at least one
unit: no branch reachable at index 0 leaves `result` empty. -/
theorem rusStep_zero_ne (lw : List Char) (hl : lw ≠ []) :
    (rusStep lw 0 []).2 ≠ [] := by
  have hprev : prevAt lw 0 = none := rfl
  unfold rusStep
  rcases hg : lw.get? 0 with _ | ch
  · have h1 := List.get?_eq_none.mp hg
    have h2 := List.length_pos.mpr hl
    omega
  · show (rusStepCh lw 0 [] ch).2 ≠ []
    by_cases h1 : ch = 'и'
    · subst h1
      by_cases h2 : nextAt lw 0 = some 'я' ∨ nextAt lw 0 = some 'ё' ∨ nextAt lw 0 = some 'ю'
      · rw [rusStepCh_iot lw 0 [] h2]; simp
      · rw [rusStepCh_i lw 0 [] h2]; simp
    by_cases h2 : ch = 'ь' ∨ ch = 'ъ'
    · rw [rusStepCh_sign lw 0 [] ch h2]
      unfold signStep
      rw [hprev]
      simp
    by_cases h3 : ch = 'й'
    · subst h3
      rw [rusStepCh_j, hprev]
      simp
    by_cases h5 : ch = 'я'
    · subst h5; rw [rusStepCh_ya]; simp
    by_cases h6 : ch = 'ё'
    · subst h6; rw [rusStepCh_yo]; simp
    by_cases h7 : ch = 'ю'
    · subst h7; rw [rusStepCh_yu]; simp
    by_cases h8 : ch = 'у'
    · subst h8; rw [rusStepCh_u]; simp
    by_cases h9 : ch = 'а'
    · subst h9
      rw [rusStepCh_default lw 0 [] 'а' (by decide)
        (fun _ => by rw [hprev]; rfl) (by simp)]
      simp
    by_cases h10 : ch = 'о'
    · subst h10
      rw [rusStepCh_default lw 0 [] 'о' (by decide) (by simp)
        (fun _ => by rw [hprev]; rfl)]
      simp
    · rw [rusStepCh_default lw 0 [] ch (by simp_all)
        (fun hc => absurd hc h9) (fun hc => absurd hc h10)]
      simp

/-- Once `result` is nonempty (with nonempty units) it stays so through the
rest of the loop. -/
theorem rusLoopF_pres : ∀ (fuel : Nat) (lw : List Char) (i : Nat)
    (acc : List (List Char)), (∀ u ∈ acc, u ≠ []) → acc ≠ [] →
    (∀ u ∈ rusLoopF fuel lw i acc, u ≠ []) ∧ rusLoopF fuel lw i acc ≠ [] := by
  intro fuel
  induction fuel with
  | zero => intro lw i acc h hacc; exact ⟨h, hacc⟩
  | succ g ih =>
    intro lw i acc h hacc
    simp only [rusLoopF]
    split_ifs with hi
    · have hp := rusStep_pres lw i acc h
      exact ih lw _ _ hp.1 (fun hh => hacc (hp.2 hh))
    · exact ⟨h, hacc⟩

/-- The full transducer loop of a nonempty (case-folded) word produces a
nonempty output. -/
theorem rusLoopF_flatten_ne (lw : List Char) (hl : lw ≠ []) :
    (rusLoopF lw.length lw 0 []).flatten ≠ [] := by
  have hlen : 0 < lw.length := List.length_pos.mpr hl
  obtain ⟨g, hg⟩ : ∃ g, lw.length = g + 1 :=
    ⟨lw.length - 1, by omega⟩
  rw [hg]
  simp only [rusLoopF]
  rw [if_pos (by omega)]
  have hstep := rusStep_pres lw 0 [] (by intro u hu; simp at hu)
  have hzero := rusStep_zero_ne lw hl
  have hres := rusLoopF_pres g lw (rusStep lw 0 []).1 (rusStep lw 0 []).2 hstep.1 hzero
  intro hflat
  rcases hne : rusLoopF g lw (rusStep lw 0 []).1 (rusStep lw 0 []).2 with _ | ⟨u0, urest⟩
  · exact hres.2 hne
  · rw [hne] at hflat
    simp only [List.flatten_cons] at hflat
    have hu0 : u0 ≠ [] := hres.1 u0 (by rw [hne]; exact List.mem_cons_self _ _)
    exact hu0 (List.append_eq_nil.mp hflat).1

/-- `transliterate_word` of a nonempty word is nonempty. -/
theorem rusTWF_ne_nil : ∀ (fuel : Nat) (w : List Char), w ≠ [] →
    w.length ≤ fuel → rusTWF fuel w ≠ [] := by
  intro fuel
  induction fuel with
  | zero =>
    intro w hw hlen
    exact absurd (List.eq_nil_of_length_eq_zero (Nat.le_zero.mp hlen)) hw
  | succ g ih =>
    intro w hw hlen
    rcases w with _ | ⟨c, cs⟩
    · exact absurd rfl hw
    · simp only [rusTWF]
      split_ifs with he hcap
      · simp
      · -- capitalized loop output
        have hne := rusLoopF_flatten_ne ((c :: cs).map pyLower) (by simp)
        intro hcontra
        rcases hflat : (rusLoopF ((c :: cs).map pyLower).length
            ((c :: cs).map pyLower) 0 []).flatten with _ | ⟨t0, tr⟩
        · exact hne hflat
        · rw [hflat] at hcontra
          simp [pyCapitalize] at hcontra
      · exact rusLoopF_flatten_ne ((c :: cs).map pyLower) (by simp)

/-- When the original first character is uppercase, every character after the
first in the transliterated word is lowercase (capitalization applies to the
first character only, and appended suffix letters "y" are lowercase). -/
theorem rusTWF_tail_no_upper : ∀ (fuel : Nat) (w : List Char), w.length ≤ fuel →
    headUpper w = true → ∀ x ∈ (rusTWF fuel w).tail, pyIsUpper x = false := by
  intro fuel
  induction fuel with
  | zero =>
    intro w hlen hh
    have hnil : w = [] := List.eq_nil_of_length_eq_zero (Nat.le_zero.mp hlen)
    subst hnil
    simp [headUpper] at hh
  | succ g ih =>
    intro w hlen hh
    rcases w with _ | ⟨c, cs⟩
    · simp [headUpper] at hh
    · simp only [rusTWF]
      by_cases he : endsYj ((c :: cs).map pyLower) = true
      · rw [if_pos he]
        by_cases hw2nil : (c :: cs).take ((c :: cs).length - 2) = []
        · rw [hw2nil]
          have hz : rusTWF g [] = [] := by cases g <;> rfl
          rw [hz]
          intro x hx
          simp at hx
        · have hk : 0 < (c :: cs).length - 2 := by
            by_contra hk0
            push_neg at hk0
            exact hw2nil (by rw [Nat.le_zero.mp hk0]; rfl)
          have hh2 : headUpper ((c :: cs).take ((c :: cs).length - 2)) = true := by
            rw [headUpper_take hk]; exact hh
          have hlen2 : ((c :: cs).take ((c :: cs).length - 2)).length ≤ g := by
            simp only [List.length_take, List.length_cons] at *
            omega
          have hA := rusTWF_ne_nil g _ hw2nil hlen2
          intro x hx
          rcases hAeq : rusTWF g ((c :: cs).take ((c :: cs).length - 2)) with _ | ⟨a0, arest⟩
          · exact absurd hAeq hA
          · rw [hAeq] at hx
            simp only [List.cons_append, List.tail_cons] at hx
            rcases List.mem_append.mp hx with h1 | h1
            · exact ih _ hlen2 hh2 x (by rw [hAeq]; exact h1)
            · simp only [List.mem_singleton] at h1
              subst h1
              decide
      · rw [if_neg he, if_pos hh]
        intro x hx
        rcases ht : (rusLoopF ((c :: cs).map pyLower).length
            ((c :: cs).map pyLower) 0 []).flatten with _ | ⟨t0, tr⟩
        · rw [ht] at hx
          simp [pyCapitalize] at hx
        · rw [ht] at hx
          simp only [pyCapitalize, List.tail_cons] at hx
          rw [List.mem_map] at hx
          obtain ⟨y, _, rfl⟩ := hx
          exact pyIsUpper_pyLower y

end RussianTransliterator

namespace ChuvashTransliterator

/-- The soft-sign pass only deletes or duplicates characters of the input. -/
theorem psf_chars (l : List Char) : ∀ c ∈ process_soft_sign l, c ∈ l := by
  generalize hn : l.length = n
  induction n using Nat.strong_induction_on generalizing l with
  | _ n ih =>
    match l with
    | [] => intro c hc; simpa [process_soft_sign] using hc
    | [a] => intro c hc; simpa [process_soft_sign] using hc
    | a :: b :: rest =>
      subst hn
      intro c hc
      unfold process_soft_sign at hc
      split_ifs at hc with hp
      · simp only [List.mem_cons] at hc ⊢
        rcases hc with hc | hc | hc
        · exact Or.inl hc
        · exact Or.inl hc
        · exact Or.inr (Or.inr
            (ih rest.length (by simp only [List.length_cons]; omega) rest rfl c hc))
      · simp only [List.mem_cons] at hc ⊢
        rcases hc with hc | hc
        · exact Or.inl hc
        · have := ih (b :: rest).length (by simp only [List.length_cons]; omega)
            (b :: rest) rfl c hc
          simp only [List.mem_cons] at this
          tauto

/-- The iotation emission for an uppercase letter consists of uppercase
letters and, in the two-character iotated forms, the lowercase base vowels. -/
theorem iotUnit_upper (prev : Option Char) (x : Char) (hx : pyIsUpper x = true) :
    ∀ c ∈ iotUnit prev x, pyIsUpper c = true ∨ c ∈ (['e', 'o', 'u', 'a'] : List Char) := by
  by_cases h1 : x = 'е'
  · subst h1; exact absurd hx (by decide)
  by_cases h2 : x = 'ё'
  · subst h2; exact absurd hx (by decide)
  by_cases h3 : x = 'ю'
  · subst h3; exact absurd hx (by decide)
  by_cases h4 : x = 'я'
  · subst h4; exact absurd hx (by decide)
  by_cases h5 : x = 'Е'
  · subst h5
    intro c hc
    cases hp : prevCons prev <;> simp only [iotUnit, hp] at hc <;>
        rw [if_pos (by decide : pyIsUpper 'Е' = true)] at hc
    · fin_cases hc
      · left; decide
      · right; decide
    · fin_cases hc
      left; decide
  by_cases h6 : x = 'Ё'
  · subst h6
    intro c hc
    cases hp : prevCons prev <;> simp only [iotUnit, hp] at hc <;>
        rw [if_pos (by decide : pyIsUpper 'Ё' = true)] at hc
    · fin_cases hc
      · left; decide
      · right; decide
    · fin_cases hc
      left; decide
  by_cases h7 : x = 'Ю'
  · subst h7
    intro c hc
    cases hp : prevCons prev <;> simp only [iotUnit, hp] at hc <;>
        rw [if_pos (by decide : pyIsUpper 'Ю' = true)] at hc
    · fin_cases hc
      · left; decide
      · right; decide
    · fin_cases hc
      left; decide
  by_cases h8 : x = 'Я'
  · subst h8
    intro c hc
    cases hp : prevCons prev <;> simp only [iotUnit, hp] at hc <;>
        rw [if_pos (by decide : pyIsUpper 'Я' = true)] at hc
    · fin_cases hc
      · left; decide
      · right; decide
    · fin_cases hc
      left; decide
  · intro c hc
    have hunit : iotUnit prev x = [x] := by
      unfold iotUnit
      rw [if_neg (by tauto), if_neg (by tauto), if_neg (by tauto), if_neg (by tauto)]
    rw [hunit] at hc
    simp only [List.mem_singleton] at hc
    subst hc
    exact Or.inl hx

theorem iotAux_upper : ∀ (w : List Char) (prev : Option Char),
    (∀ x ∈ w, pyIsUpper x = true) →
    ∀ c ∈ iotAux prev w, pyIsUpper c = true ∨ c ∈ (['e', 'o', 'u', 'a'] : List Char) := by
  intro w
  induction w with
  | nil => intro prev _ c hc; simp [iotAux] at hc
  | cons x rest ih =>
    intro prev hw c hc
    simp only [iotAux] at hc
    rcases List.mem_append.mp hc with h1 | h1
    · exact iotUnit_upper prev x (hw x (List.mem_cons_self _ _)) c h1
    · exact ih (some x) (fun y hy => hw y (List.mem_cons_of_mem _ hy)) c h1

/-- For every uppercase letter of the repertoire, the Chuvash mapping emits
uppercase letters apart from the lowercase "s" of "Ts" (for Ц). -/
theorem chuvKeys_upper_map : ∀ p ∈ lowerPairs, ∀ c3 ∈ (chuvMap p.1).getD [p.1],
    pyIsUpper c3 = true ∨ c3 ∈ (['e', 'o', 'u', 'a', 's'] : List Char) := by
  decide

theorem chuvMap_latin_vowels : chuvMap 'e' = none ∧ chuvMap 'o' = none ∧
    chuvMap 'u' = none ∧ chuvMap 'a' = none := by decide

theorem mapStage_upper (l : List Char)
    (h : ∀ c2 ∈ l, pyIsUpper c2 = true ∨ c2 ∈ (['e', 'o', 'u', 'a'] : List Char)) :
    ∀ c ∈ mapStage l, pyIsUpper c = true ∨ c ∈ (['e', 'o', 'u', 'a', 's'] : List Char) := by
  intro c hc
  unfold mapStage at hc
  rw [List.mem_flatten] at hc
  obtain ⟨u, hu, hcu⟩ := hc
  rw [List.mem_map] at hu
  obtain ⟨x, hx, rfl⟩ := hu
  rcases h x hx with hup | hmem
  · obtain ⟨v, hv⟩ := Option.isSome_iff_exists.mp hup
    exact chuvKeys_upper_map (x, v) (assocLookup_mem hv) c hcu
  · fin_cases hmem
    · rw [chuvMap_latin_vowels.1] at hcu
      simp only [Option.getD_none, List.mem_singleton] at hcu
      subst hcu; right; decide
    · rw [chuvMap_latin_vowels.2.1] at hcu
      simp only [Option.getD_none, List.mem_singleton] at hcu
      subst hcu; right; decide
    · rw [chuvMap_latin_vowels.2.2.1] at hcu
      simp only [Option.getD_none, List.mem_singleton] at hcu
      subst hcu; right; decide
    · rw [chuvMap_latin_vowels.2.2.2] at hcu
      simp only [Option.getD_none, List.mem_singleton] at hcu
      subst hcu; right; decide

/-- All-caps words come out all-caps except for the non-initial letters of
the multi-character emissions (Je/Jo/Ju/Ja and Ts). -/
theorem transliterate_word_upper (w : List Char) (hw : ∀ x ∈ w, pyIsUpper x = true) :
    ∀ c ∈ transliterate_word w,
      pyIsUpper c = true ∨ c ∈ (['e', 'o', 'u', 'a', 's'] : List Char) := by
  intro c hc
  unfold transliterate_word at hc
  split_ifs at hc with hnil
  · subst hnil; simp at hc
  · refine mapStage_upper _ ?_ c hc
    intro c2 hc2
    exact iotAux_upper (process_soft_sign w) none
      (fun x hx => hw x (psf_chars _ x hx)) c2 hc2

end ChuvashTransliterator

/-- C5 counterexample: the claim as stated is false at "ЮТ" — the Chuvash
engine maps the all-caps word "ЮТ" to "JuT", which contains the lowercase
"u", so an all-caps Chuvash word does not always yield an all-caps result
(the iotated two-character forms and "Ts" are capitalized on their first
letter only). -/
theorem C5_case_policy_counterexample :
    ¬ ((∀ w v : List Char, w.map pyLower = v.map pyLower →
          RussianTransliterator.headUpper w = RussianTransliterator.headUpper v →
          RussianTransliterator.transliterate_word w =
            RussianTransliterator.transliterate_word v) ∧
       (∀ w : List Char, (∀ x ∈ w, pyIsUpper x = true) →
          ∀ c ∈ ChuvashTransliterator.transliterate_word w, pyIsUpper c = true)) := by
  intro h
  exact absurd (h.2 ['Ю', 'Т'] (by decide) 'u' (by decide)) (by decide)

/-- C5 (amended): the Russian transducer's output depends only on the
case-folded word and the case of the first character (interior casing is
irrelevant), and when the original first character is uppercase everything
after the first output character is lowercase — so an all-caps Russian word
yields only a leading capital.  The Chuvash transducer handles case per
individual letter; an all-caps Chuvash word yields a result all of whose
characters are uppercase except for the non-initial letters of the
multi-character emissions: the lowercase base vowels of "Je"/"Jo"/"Ju"/"Ja"
and the "s" of "Ts". -/
theorem C5_case_policy_amended :
    (∀ w v : List Char, w.map pyLower = v.map pyLower →
      RussianTransliterator.headUpper w = RussianTransliterator.headUpper v →
      RussianTransliterator.transliterate_word w =
        RussianTransliterator.transliterate_word v) ∧
    (∀ w : List Char, RussianTransliterator.headUpper w = true →
      ∀ x ∈ (RussianTransliterator.transliterate_word w).tail, pyIsUpper x = false) ∧
    (∀ w : List Char, (∀ x ∈ w, pyIsUpper x = true) →
      ∀ c ∈ ChuvashTransliterator.transliterate_word w,
        pyIsUpper c = true ∨ c ∈ (['e', 'o', 'u', 'a', 's'] : List Char)) := by
  refine ⟨?_, ?_, ?_⟩
  · intro w v hlow hhead
    unfold RussianTransliterator.transliterate_word
    have hlen : w.length = v.length := by
      have := congrArg List.length hlow
      simpa using this
    rw [hlen]
    exact RussianTransliterator.rusTWF_case_fold v.length w v hlow hhead
  · intro w hh
    exact RussianTransliterator.rusTWF_tail_no_upper w.length w (Nat.le_refl _) hh
  · exact ChuvashTransliterator.transliterate_word_upper

/-- Witness for C5 (amended): "ПРИВЕТ" and "Привет" transliterate
identically, and the all-caps Chuvash "ЮТ" output "JuT" satisfies the
per-letter case description. -/
theorem C5_case_policy_amended_witness :
    RussianTransliterator.transliterate_word ['П', 'Р', 'И', 'В', 'Е', 'Т'] =
      RussianTransliterator.transliterate_word ['П', 'р', 'и', 'в', 'е', 'т'] ∧
    (pyIsUpper 'u' = true ∨ 'u' ∈ (['e', 'o', 'u', 'a', 's'] : List Char)) :=
  ⟨C5_case_policy_amended.1 ['П', 'Р', 'И', 'В', 'Е', 'Т'] ['П', 'р', 'и', 'в', 'е', 'т']
      (by decide) (by decide),
   C5_case_policy_amended.2.2 ['Ю', 'Т'] (by decide) 'u' (by decide)⟩

/-!
## Claim C7 — no failure modes / unmapped-character passthrough

The embedding is total by construction (every Python `while` loop and the
suffix recursion are realised as total fuel-indexed functions whose fuel
always suffices, and the one partial Python operation, `result[-1]`, is
unreachable on an empty `result`).  The quantitative content of the claim is
settled by counting: an unmapped character that no earlier stage rewrites is
never lost.  `List.count` is used: "passed through" is read as "every
occurrence still appears in the output".
-/

namespace ChuvashTransliterator

/-- The four iotated letters, in both cases. -/
def iotatedLetters : List Char := ['е', 'Е', 'ё', 'Ё', 'ю', 'Ю', 'я', 'Я']

/-- The soft-sign pass never loses a character other than a soft sign. -/
theorem psf_count (c : Char) (h1 : c ≠ 'ь') (h2 : c ≠ 'Ь') :
    ∀ l : List Char, l.count c ≤ (process_soft_sign l).count c := by
  intro l
  generalize hn : l.length = n
  induction n using Nat.strong_induction_on generalizing l with
  | _ n ih =>
    match l with
    | [] => exact Nat.le_refl _
    | [a] => exact Nat.le_refl _
    | a :: b :: rest =>
      subst hn
      unfold process_soft_sign
      split_ifs with hp
      · have hb : b ≠ c := by
          have := (Bool.and_eq_true _ _).mp hp
          intro hbc
          subst hbc
          simp only [isSoftSign, Bool.or_eq_true, decide_eq_true_eq] at this
          rcases this.2 with h | h
          · exact h1 h
          · exact h2 h
        have hrest := ih rest.length (by simp only [List.length_cons]; omega) rest rfl
        have hbne : (b == c) = false := by simp [hb]
        simp only [List.count_cons, hbne, Bool.false_eq_true, if_false]
        split_ifs <;> omega
      · have hrest := ih (b :: rest).length (by simp only [List.length_cons]; omega)
          (b :: rest) rfl
        simp only [List.count_cons] at hrest ⊢
        split_ifs at hrest ⊢ <;> omega

/-- A non-iotated character is emitted unchanged by the iotation rule when it
is the current character. -/
theorem iotUnit_self (prev : Option Char) (c : Char) (hc : c ∉ iotatedLetters) :
    iotUnit prev c = [c] := by
  simp only [iotatedLetters, List.mem_cons, List.not_mem_nil, or_false, not_or] at hc
  obtain ⟨n1, n2, n3, n4, n5, n6, n7, n8⟩ := hc
  unfold iotUnit
  rw [if_neg (by tauto), if_neg (by tauto), if_neg (by tauto), if_neg (by tauto)]

/-- The iotation pass never loses a non-iotated character. -/
theorem iotAux_count (c : Char) (hc : c ∉ iotatedLetters) :
    ∀ (w : List Char) (prev : Option Char),
      w.count c ≤ (iotAux prev w).count c := by
  intro w
  induction w with
  | nil => intro prev; exact Nat.le_refl _
  | cons x rest ih =>
    intro prev
    simp only [iotAux, List.count_append, List.count_cons]
    by_cases hx : x = c
    · subst hx
      rw [iotUnit_self prev x hc]
      have := ih (some x)
      simp only [List.count_singleton, beq_self_eq_true, if_pos]
      omega
    · have := ih (some x)
      have hxne : (x == c) = false := by simp [hx]
      rw [hxne]
      simp only [Bool.false_eq_true, if_false]
      omega

/-- The mapping stage never loses an unmapped character. -/
theorem mapStage_count (c : Char) (hm : chuvMap c = none) :
    ∀ l : List Char, l.count c ≤ (mapStage l).count c := by
  intro l
  induction l with
  | nil => exact Nat.le_refl _
  | cons x rest ih =>
    unfold mapStage at ih ⊢
    simp only [List.map_cons, List.flatten_cons, List.count_append, List.count_cons]
    by_cases hx : x = c
    · subst hx
      rw [hm]
      simp only [Option.getD_none, List.count_singleton, beq_self_eq_true, if_pos]
      omega
    · have hxne : (x == c) = false := by simp [hx]
      rw [hxne]
      simp only [Bool.false_eq_true, if_false]
      omega

/-- The whole Chuvash word transducer never loses an unmapped, non-iotated
character. -/
theorem transliterate_word_count (c : Char) (hm : chuvMap c = none)
    (hio : c ∉ iotatedLetters) (w : List Char) :
    w.count c ≤ (transliterate_word w).count c := by
  unfold transliterate_word
  split_ifs with hnil
  · exact Nat.le_refl _
  · have hsign1 : c ≠ 'ь' := fun hc => by rw [hc] at hm; exact absurd hm (by decide)
    have hsign2 : c ≠ 'Ь' := fun hc => by rw [hc] at hm; exact absurd hm (by decide)
    calc w.count c ≤ (process_soft_sign w).count c := psf_count c hsign1 hsign2 w
      _ ≤ (iotAux none (process_soft_sign w)).count c := iotAux_count c hio _ none
      _ ≤ (mapStage (iotAux none (process_soft_sign w))).count c := mapStage_count c hm _

end ChuvashTransliterator

namespace RussianTransliterator

/-- A case-less character (fixed by both case maps) is none of the letters
with special transduction rules or special lookahead consumption. -/
theorem caseless_not_special {c : Char} (hup : pyUpper c = c) :
    ∀ d ∈ (['и', 'й', 'я', 'ё', 'ю', 'у', 'а', 'о', 'ь', 'ъ', 'э', 'ы', 'е',
            'e', 'i'] : List Char), c ≠ d := by
  intro d hd
  fin_cases hd <;> (intro hc; subst hc; exact absurd hup (by decide))

theorem count_take_succ_of_get? (c : Char) {lw : List Char} {i : Nat} {ch : Char}
    (h : lw.get? i = some ch) :
    (lw.take (i + 1)).count c = (lw.take i).count c + (if ch = c then 1 else 0) := by
  rw [List.take_succ, List.count_append]
  congr 1
  rw [List.get?_eq_getElem?] at h
  rw [h]
  by_cases hc : ch = c
  · subst hc; simp
  · simp [List.count_cons, List.count_nil, hc]

/-- The counting invariant of the transducer loop: every occurrence of `c`
among the first `i` consumed characters is present in the emitted units; and
when the character just consumed was и, the occurrences are already present
ignoring the last emitted unit (the only unit the й rule can overwrite). -/
def countInv (lw : List Char) (c : Char) (i : Nat) (acc : List (List Char)) : Prop :=
  (lw.take i).count c ≤ (acc.flatten).count c ∧
  (0 < i → lw.get? (i - 1) = some 'и' →
    (lw.take i).count c ≤ ((acc.dropLast).flatten).count c)

theorem countInv_zero (lw : List Char) (c : Char) : countInv lw c 0 [] :=
  ⟨by simp, fun h => absurd h (by omega)⟩

/-- Ordinary single-consume step: the consumed character contributes at most
what the appended units contain, and it is not и. -/
theorem countInv_step1 {c : Char} {lw : List Char} {i : Nat}
    {acc us : List (List Char)} {ch : Char}
    (hch : lw.get? i = some ch) (hcount : (if ch = c then 1 else 0) ≤ (us.flatten).count c)
    (hni : ch ≠ 'и') (hinv : countInv lw c i acc) :
    countInv lw c (i + 1) (acc ++ us) := by
  constructor
  · rw [count_take_succ_of_get? c hch]
    simp only [List.flatten_append, List.count_append]
    have h1 := hinv.1
    omega
  · intro _ hprev
    rw [Nat.add_sub_cancel, hch] at hprev
    simp only [Option.some.injEq] at hprev
    exact absurd hprev hni

/-- Single-consume step at an и, appending at least one unit. -/
theorem countInv_step1_i {c : Char} {lw : List Char} {i : Nat}
    {acc us : List (List Char)}
    (hch : lw.get? i = some 'и') (hcc : c ≠ 'и') (hus : us ≠ [])
    (hinv : countInv lw c i acc) :
    countInv lw c (i + 1) (acc ++ us) := by
  have htake : (lw.take (i + 1)).count c = (lw.take i).count c := by
    have h1 := count_take_succ_of_get? c hch
    rw [if_neg (fun h => hcc h.symm)] at h1
    omega
  constructor
  · rw [htake]
    simp only [List.flatten_append, List.count_append]
    have h1 := hinv.1
    omega
  · intro _ _
    rw [htake, List.dropLast_append_of_ne_nil _ hus]
    simp only [List.flatten_append, List.count_append]
    have h1 := hinv.1
    omega

/-- Two-consume step where the lookahead character is not и. -/
theorem countInv_step2 {c : Char} {lw : List Char} {i : Nat}
    {acc us : List (List Char)} {ch nx : Char}
    (hch : lw.get? i = some ch) (hnx : lw.get? (i + 1) = some nx)
    (hc1 : ch ≠ c) (hc2 : nx ≠ c) (hni : nx ≠ 'и')
    (hinv : countInv lw c i acc) :
    countInv lw c (i + 2) (acc ++ us) := by
  have htake : (lw.take (i + 2)).count c = (lw.take i).count c := by
    have h1 := count_take_succ_of_get? c hch (i := i)
    have h2 := count_take_succ_of_get? c hnx (i := i + 1)
    rw [if_neg (fun h => hc1 h)] at h1
    rw [if_neg (fun h => hc2 h)] at h2
    rw [(by omega : i + 1 + 1 = i + 2)] at h2
    omega
  constructor
  · rw [htake]
    simp only [List.flatten_append, List.count_append]
    have h1 := hinv.1
    omega
  · intro _ hprev
    have : i + 2 - 1 = i + 1 := by omega
    rw [this, hnx] at hprev
    simp only [Option.some.injEq] at hprev
    exact absurd hprev hni

/-- Two-consume step where the lookahead character is и, appending at least
one unit. -/
theorem countInv_step2_i {c : Char} {lw : List Char} {i : Nat}
    {acc us : List (List Char)} {ch : Char}
    (hch : lw.get? i = some ch) (hnx : lw.get? (i + 1) = some 'и')
    (hc1 : ch ≠ c) (hc2 : c ≠ 'и') (hus : us ≠ [])
    (hinv : countInv lw c i acc) :
    countInv lw c (i + 2) (acc ++ us) := by
  have htake : (lw.take (i + 2)).count c = (lw.take i).count c := by
    have h1 := count_take_succ_of_get? c hch (i := i)
    have h2 := count_take_succ_of_get? c hnx (i := i + 1)
    rw [if_neg (fun h => hc1 h)] at h1
    rw [if_neg (fun h => hc2 h.symm)] at h2
    rw [(by omega : i + 1 + 1 = i + 2)] at h2
    omega
  constructor
  · rw [htake]
    simp only [List.flatten_append, List.count_append]
    have h1 := hinv.1
    omega
  · intro _ _
    rw [htake, List.dropLast_append_of_ne_nil _ hus]
    simp only [List.flatten_append, List.count_append]
    have h1 := hinv.1
    omega

/-- The й step with preceding и: the last emitted unit is replaced, which is
covered by the second component of the invariant. -/
theorem countInv_step_j {c : Char} {lw : List Char} {i : Nat}
    {acc : List (List Char)}
    (hch : lw.get? i = some 'й') (hpos : 0 < i) (hprev : lw.get? (i - 1) = some 'и')
    (hc1 : c ≠ 'й')
    (hinv : countInv lw c i acc) :
    countInv lw c (i + 1) (acc.dropLast ++ [['e'], ['i']]) := by
  have htake : (lw.take (i + 1)).count c = (lw.take i).count c := by
    have h1 := count_take_succ_of_get? c hch
    rw [if_neg (fun h => hc1 h.symm)] at h1
    omega
  constructor
  · rw [htake]
    simp only [List.flatten_append, List.count_append]
    have h2 := hinv.2 hpos hprev
    omega
  · intro _ hpr
    rw [Nat.add_sub_cancel, hch] at hpr
    simp only [Option.some.injEq] at hpr
    exact absurd hpr (by decide)

/-- `dupAcc` as a plain append. -/
theorem dupAcc_eq_append (acc : List (List Char)) (b : Bool) (p : Char) :
    dupAcc acc b p = acc ++ (if b then [(rusMap p).getD [p]] else []) := by
  cases b <;> simp [dupAcc]

end RussianTransliterator

namespace RussianTransliterator

/-- One loop step preserves the counting invariant for a case-less unmapped
character. -/
theorem rusStep_countInv {c : Char} (lw : List Char) (i : Nat)
    (acc : List (List Char)) (hm : rusMap c = none) (hup : pyUpper c = c)
    (hinv : countInv lw c i acc) :
    countInv lw c (rusStep lw i acc).1 (rusStep lw i acc).2 := by
  have hne := caseless_not_special hup
  unfold rusStep
  rcases hch : lw.get? i with _ | ch
  · constructor
    · have heq : lw.take (i + 1) = lw.take i := by
        have hlen := List.get?_eq_none.mp hch
        rw [List.take_of_length_le hlen, List.take_of_length_le (by omega)]
      rw [heq]
      exact hinv.1
    · intro _ hprev
      rw [Nat.add_sub_cancel, hch] at hprev
      exact absurd hprev (by simp)
  · show countInv lw c (rusStepCh lw i acc ch).1 (rusStepCh lw i acc ch).2
    by_cases h1 : ch = 'и'
    · subst h1
      by_cases h2 : nextAt lw i = some 'я' ∨ nextAt lw i = some 'ё' ∨ nextAt lw i = some 'ю'
      · rw [rusStepCh_iot lw i acc h2]
        rcases h2 with h2 | h2 | h2 <;>
          (have hnx : lw.get? (i + 1) = some _ := h2
           exact countInv_step2 hch hnx (fun h => hne 'и' (by decide) h.symm)
             (fun h => hne _ (by decide) h.symm) (by decide) hinv)
      · rw [rusStepCh_i lw i acc h2]
        exact countInv_step1_i hch (hne 'и' (by decide)) (by simp) hinv
    by_cases h2 : ch = 'ь' ∨ ch = 'ъ'
    · rw [rusStepCh_sign lw i acc ch h2]
      have hchc : ch ≠ c := by
        rcases h2 with rfl | rfl
        · exact fun h => hne 'ь' (by decide) h.symm
        · exact fun h => hne 'ъ' (by decide) h.symm
      have hchi : ch ≠ 'и' := by rcases h2 with rfl | rfl <;> decide
      unfold signStep
      rcases hp : prevAt lw i with _ | p
      · show countInv lw c (i + 1) (acc ++ [['i']])
        exact countInv_step1 hch (by rw [if_neg hchc]; exact Nat.zero_le _) hchi hinv
      · dsimp only
        split
        · rcases hnx : nextAt lw i with _ | n
          · show countInv lw c (i + 1) (dupAcc acc (ch = 'ь') p)
            rw [dupAcc_eq_append]
            exact countInv_step1 hch (by rw [if_neg hchc]; exact Nat.zero_le _) hchi hinv
          · have hnx' : lw.get? (i + 1) = some n := hnx
            unfold signVowelStep
            dsimp only
            by_cases hv1 : n = 'а' ∨ n = 'э' ∨ n = 'ы' ∨ n = 'о' ∨ n = 'у' ∨ n = 'и'
            · rw [if_pos hv1]
              show countInv lw c (i + 2)
                (dupAcc acc (ch = 'ь') p ++ ['i' :: (rusMap n).getD []])
              rw [dupAcc_eq_append, List.append_assoc]
              rcases hv1 with rfl | rfl | rfl | rfl | rfl | rfl
              · exact countInv_step2 hch hnx' hchc
                  (fun h => hne 'а' (by decide) h.symm) (by decide) hinv
              · exact countInv_step2 hch hnx' hchc
                  (fun h => hne 'э' (by decide) h.symm) (by decide) hinv
              · exact countInv_step2 hch hnx' hchc
                  (fun h => hne 'ы' (by decide) h.symm) (by decide) hinv
              · exact countInv_step2 hch hnx' hchc
                  (fun h => hne 'о' (by decide) h.symm) (by decide) hinv
              · exact countInv_step2 hch hnx' hchc
                  (fun h => hne 'у' (by decide) h.symm) (by decide) hinv
              · exact countInv_step2_i hch hnx' hchc (hne 'и' (by decide))
                  (by simp) hinv
            · rw [if_neg hv1]
              by_cases hv2 : n = 'ю'
              · subst hv2
                rw [if_pos rfl]
                show countInv lw c (i + 2) (dupAcc acc (ch = 'ь') p ++ [['i'], ['u']])
                rw [dupAcc_eq_append, List.append_assoc]
                exact countInv_step2 hch hnx' hchc
                  (fun h => hne 'ю' (by decide) h.symm) (by decide) hinv
              · rw [if_neg hv2]
                by_cases hv3 : n = 'я'
                · subst hv3
                  rw [if_pos rfl]
                  show countInv lw c (i + 2) (dupAcc acc (ch = 'ь') p ++ [['i'], ['a']])
                  rw [dupAcc_eq_append, List.append_assoc]
                  exact countInv_step2 hch hnx' hchc
                    (fun h => hne 'я' (by decide) h.symm) (by decide) hinv
                · rw [if_neg hv3]
                  by_cases hv4 : n = 'ё'
                  · subst hv4
                    rw [if_pos rfl]
                    show countInv lw c (i + 2) (dupAcc acc (ch = 'ь') p ++ [['i'], ['o']])
                    rw [dupAcc_eq_append, List.append_assoc]
                    exact countInv_step2 hch hnx' hchc
                      (fun h => hne 'ё' (by decide) h.symm) (by decide) hinv
                  · rw [if_neg hv4]
                    by_cases hv5 : n = 'е'
                    · subst hv5
                      rw [if_pos rfl]
                      show countInv lw c (i + 2)
                        (dupAcc acc (ch = 'ь') p ++ [['i'], ['e']])
                      rw [dupAcc_eq_append, List.append_assoc]
                      exact countInv_step2 hch hnx' hchc
                        (fun h => hne 'е' (by decide) h.symm) (by decide) hinv
                    · rw [if_neg hv5]
                      show countInv lw c (i + 1) (dupAcc acc (ch = 'ь') p)
                      rw [dupAcc_eq_append]
                      exact countInv_step1 hch
                        (by rw [if_neg hchc]; exact Nat.zero_le _) hchi hinv
        · show countInv lw c (i + 1) (acc ++ [['i']])
          exact countInv_step1 hch (by rw [if_neg hchc]; exact Nat.zero_le _) hchi hinv
    by_cases h3 : ch = 'й'
    · subst h3
      rw [rusStepCh_j]
      split_ifs with hpi
      · have hi0 : i ≠ 0 := by
          intro h0
          rw [h0] at hpi
          exact absurd hpi (by simp [prevAt])
        have hgp : lw.get? (i - 1) = some 'и' := by
          unfold prevAt at hpi
          rw [if_neg hi0] at hpi
          exact hpi
        exact countInv_step_j hch (by omega) hgp (hne 'й' (by decide)) hinv
      · exact countInv_step1 hch
          (by rw [if_neg (fun h => hne 'й' (by decide) h.symm)]; exact Nat.zero_le _)
          (by decide) hinv
    by_cases h4 : ch = 'и'
    · exact absurd h4 h1
    by_cases h5 : ch = 'я'
    · subst h5
      rw [rusStepCh_ya]
      exact countInv_step1 hch
        (by rw [if_neg (fun h => hne 'я' (by decide) h.symm)]; exact Nat.zero_le _)
        (by decide) hinv
    by_cases h6 : ch = 'ё'
    · subst h6
      rw [rusStepCh_yo]
      exact countInv_step1 hch
        (by rw [if_neg (fun h => hne 'ё' (by decide) h.symm)]; exact Nat.zero_le _)
        (by decide) hinv
    by_cases h7 : ch = 'ю'
    · subst h7
      rw [rusStepCh_yu]
      exact countInv_step1 hch
        (by rw [if_neg (fun h => hne 'ю' (by decide) h.symm)]; exact Nat.zero_le _)
        (by decide) hinv
    by_cases h8 : ch = 'у'
    · subst h8
      rw [rusStepCh_u]
      exact countInv_step1 hch
        (by rw [if_neg (fun h => hne 'у' (by decide) h.symm)]; exact Nat.zero_le _)
        (by decide) hinv
    by_cases h9 : ch = 'а'
    · subst h9
      by_cases hgl : glideCond (prevAt lw i) 'а' = true
      · rw [rusStepCh_a_glide lw i acc hgl]
        exact countInv_step1 hch
          (by rw [if_neg (fun h => hne 'а' (by decide) h.symm)]; exact Nat.zero_le _)
          (by decide) hinv
      · rw [rusStepCh_default lw i acc 'а' (by decide)
          (fun _ => Bool.not_eq_true _ ▸ hgl) (by simp)]
        exact countInv_step1 hch
          (by rw [if_neg (fun h => hne 'а' (by decide) h.symm)]; exact Nat.zero_le _)
          (by decide) hinv
    by_cases h10 : ch = 'о'
    · subst h10
      by_cases hgl : glideCond (prevAt lw i) 'о' = true
      · rw [rusStepCh_o_glide lw i acc hgl]
        exact countInv_step1 hch
          (by rw [if_neg (fun h => hne 'о' (by decide) h.symm)]; exact Nat.zero_le _)
          (by decide) hinv
      · rw [rusStepCh_default lw i acc 'о' (by decide) (by simp)
          (fun _ => Bool.not_eq_true _ ▸ hgl)]
        exact countInv_step1 hch
          (by rw [if_neg (fun h => hne 'о' (by decide) h.symm)]; exact Nat.zero_le _)
          (by decide) hinv
    · rw [rusStepCh_default lw i acc ch (by simp_all)
        (fun hc => absurd hc h9) (fun hc => absurd hc h10)]
      refine countInv_step1 hch ?_ h1 hinv
      by_cases hcc : ch = c
      · subst hcc
        rw [hm]
        simp
      · rw [if_neg hcc]
        exact Nat.zero_le _

end RussianTransliterator

/-- Pointwise count monotonicity lifts through flattening a token list. -/
theorem count_flatten_mono (c : Char) (f g : Token → List Char) :
    ∀ L : List Token, (∀ t ∈ L, (f t).count c ≤ (g t).count c) →
      ((L.map f).flatten).count c ≤ ((L.map g).flatten).count c := by
  intro L
  induction L with
  | nil => intro _; exact Nat.le_refl _
  | cons t rest ih =>
    intro h
    simp only [List.map_cons, List.flatten_cons, List.count_append]
    exact Nat.add_le_add (h t (List.mem_cons_self _ _))
      (ih fun u hu => h u (List.mem_cons_of_mem _ hu))

namespace RussianTransliterator

theorem endsYj_drop {lw : List Char} (h : endsYj lw = true) :
    lw.drop (lw.length - 2) = ['ы', 'й'] := by
  unfold endsYj at h
  rcases hr : lw.reverse with _ | ⟨c1, t1⟩
  · rw [hr] at h; simp at h
  · rcases t1 with _ | ⟨c2, t2⟩
    · rw [hr] at h; simp at h
    · rw [hr] at h
      simp only [decide_eq_true_eq] at h
      obtain ⟨h1, h2⟩ := h
      subst h1
      subst h2
      have hlw : lw = t2.reverse ++ ['ы', 'й'] := by
        have := congrArg List.reverse hr
        simpa using this
      rw [hlw]
      have hlen : (t2.reverse ++ ['ы', 'й']).length - 2 = t2.reverse.length := by
        simp
      rw [hlen, List.drop_left]

theorem count_map_pyLower {c : Char} (hlow : pyLower c = c) :
    ∀ l : List Char, l.count c ≤ (l.map pyLower).count c := by
  intro l
  induction l with
  | nil => exact Nat.le_refl _
  | cons x rest ih =>
    simp only [List.map_cons, List.count_cons]
    by_cases hx : x = c
    · subst hx
      rw [hlow]
      simp only [beq_self_eq_true, if_pos]
      omega
    · have hxne : (x == c) = false := by simp [hx]
      rw [hxne]
      simp only [Bool.false_eq_true, if_false]
      split_ifs <;> omega

theorem pyCapitalize_count {c : Char} (hlow : pyLower c = c) (hup : pyUpper c = c) :
    ∀ t : List Char, t.count c ≤ (pyCapitalize t).count c := by
  intro t
  cases t with
  | nil => exact Nat.le_refl _
  | cons t0 tr =>
    simp only [pyCapitalize, List.count_cons]
    have htr := count_map_pyLower hlow tr
    by_cases h0 : t0 = c
    · subst h0
      rw [hup]
      simp only [beq_self_eq_true, if_pos]
      omega
    · have h0ne : (t0 == c) = false := by simp [h0]
      rw [h0ne]
      simp only [Bool.false_eq_true, if_false]
      split_ifs <;> omega

theorem rusLoopF_count {c : Char} (hm : rusMap c = none) (hup : pyUpper c = c) :
    ∀ (fuel : Nat) (lw : List Char) (i : Nat) (acc : List (List Char)),
      lw.length - i ≤ fuel → countInv lw c i acc →
      lw.count c ≤ ((rusLoopF fuel lw i acc).flatten).count c := by
  intro fuel
  induction fuel with
  | zero =>
    intro lw i acc hf hinv
    have h1 := hinv.1
    rw [List.take_of_length_le (by omega)] at h1
    exact h1
  | succ g ih =>
    intro lw i acc hf hinv
    simp only [rusLoopF]
    split_ifs with hi
    · have hstep := rusStep_countInv lw i acc hm hup hinv
      have hadv := rusStep_fst lw i acc
      apply ih
      · rcases hadv with h | h <;> omega
      · exact hstep
    · have h1 := hinv.1
      rw [List.take_of_length_le (by omega)] at h1
      exact h1

theorem rusTWF_count {c : Char} (hm : rusMap c = none) (hlow : pyLower c = c)
    (hup : pyUpper c = c) :
    ∀ (fuel : Nat) (w : List Char), w.length ≤ fuel →
      w.count c ≤ (rusTWF fuel w).count c := by
  intro fuel
  induction fuel with
  | zero =>
    intro w hlen
    rw [List.eq_nil_of_length_eq_zero (Nat.le_zero.mp hlen)]
    simp
  | succ g ih =>
    intro w hlen
    rcases w with _ | ⟨x, xs⟩
    · simp
    · simp only [rusTWF]
      split_ifs with he hcap
      · -- the -ый suffix branch: the two stripped characters are not c
        have hdropmap := endsYj_drop he
        rw [← List.map_drop, List.length_map] at hdropmap
        have hdrop0 : (((x :: xs)).drop ((x :: xs).length - 2)).count c = 0 := by
          rw [List.count_eq_zero]
          intro hcmem
          have hmem : pyLower c ∈ ((x :: xs).drop ((x :: xs).length - 2)).map pyLower :=
            List.mem_map_of_mem _ hcmem
          rw [hdropmap, hlow] at hmem
          simp only [List.mem_cons, List.not_mem_nil, or_false] at hmem
          rcases hmem with hmem | hmem
          · rw [hmem] at hup; exact absurd hup (by decide)
          · rw [hmem] at hup; exact absurd hup (by decide)
        have hth := ih ((x :: xs).take ((x :: xs).length - 2))
          (by simp only [List.length_take, List.length_cons] at *; omega)
        have hcnt : (x :: xs).count c =
            ((x :: xs).take ((x :: xs).length - 2)).count c := by
          conv_lhs => rw [← List.take_append_drop ((x :: xs).length - 2) (x :: xs)]
          rw [List.count_append, hdrop0]
          omega
        rw [hcnt, List.count_append]
        omega
      · -- capitalized loop output
        calc (x :: xs).count c
            ≤ ((x :: xs).map pyLower).count c := count_map_pyLower hlow _
          _ ≤ ((rusLoopF ((x :: xs).map pyLower).length ((x :: xs).map pyLower)
                0 []).flatten).count c :=
              rusLoopF_count hm hup _ _ 0 [] (by omega) (countInv_zero _ c)
          _ ≤ _ := pyCapitalize_count hlow hup _
      · calc (x :: xs).count c
            ≤ ((x :: xs).map pyLower).count c := count_map_pyLower hlow _
          _ ≤ ((rusLoopF ((x :: xs).map pyLower).length ((x :: xs).map pyLower)
                0 []).flatten).count c :=
              rusLoopF_count hm hup _ _ 0 [] (by omega) (countInv_zero _ c)

end RussianTransliterator

namespace RussianTransliterator

theorem rus_transliterate_count {c : Char} (hm : rusMap c = none)
    (hlow : pyLower c = c) (hup : pyUpper c = c) (s : List Char) :
    s.count c ≤ (transliterate s).count c := by
  unfold transliterate
  split_ifs with hnil
  · exact Nat.le_refl _
  · conv_lhs => rw [← tokenize_join s]
    apply count_flatten_mono c Token.chars processToken (tokenize s)
    intro t _
    unfold processToken
    split_ifs with hdet
    · exact rusTWF_count hm hlow hup t.chars.length t.chars (Nat.le_refl _)
    · exact Nat.le_refl _

end RussianTransliterator

namespace ChuvashTransliterator

theorem chuv_transliterate_count {c : Char} (hm : chuvMap c = none)
    (hio : c ∉ iotatedLetters) (s : List Char) :
    s.count c ≤ (transliterate s).count c := by
  unfold transliterate
  split_ifs with hnil
  · exact Nat.le_refl _
  · conv_lhs => rw [← tokenize_join s]
    apply count_flatten_mono c Token.chars processToken (tokenize s)
    intro t _
    unfold processToken
    split_ifs with hdet
    · exact transliterate_word_count c hm hio t.chars
    · exact Nat.le_refl _

end ChuvashTransliterator

/-!
## Claim C7 — no failure modes

"Character without case variants" has to be rendered faithfully: Python's
`str.lower` / `str.upper` move many characters outside the modelled
repertoire (Greek, archaic Cyrillic, fullwidth letters), so a character
fixed by the modelled case functions is not necessarily fixed by Python's.
The amended claim's Russian branch is therefore stated over a domain on
which caselessness is certain and the modelled case functions provably
coincide with Python's: the ASCII characters other than letters (digits,
punctuation, symbols, control characters), none of which has a case mapping
in Unicode.
-/

/-- An ASCII character that is not a letter: such a character has no case
variants, and Python's `str.lower` and `str.upper` leave it unchanged. -/
def asciiCaseless (c : Char) : Bool :=
  c.toNat < 0x80 && !(0x41 ≤ c.toNat && c.toNat ≤ 0x5A) &&
  !(0x61 ≤ c.toNat && c.toNat ≤ 0x7A)

/-- Every key of the lower-casing table is a cased letter, never a case-less
ASCII character. -/
theorem lowerPairs_keys_cased :
    ∀ p ∈ lowerPairs, asciiCaseless p.1 = false := by
  decide

/-- Every key of the upper-casing table is a cased letter, never a case-less
ASCII character. -/
theorem upperPairs_keys_cased :
    ∀ p ∈ upperPairs, asciiCaseless p.1 = false := by
  decide

/-- On case-less ASCII characters the modelled `str.lower` is the identity,
in agreement with Python. -/
theorem asciiCaseless_pyLower {c : Char} (h : asciiCaseless c = true) :
    pyLower c = c := by
  unfold pyLower
  have hn : assocLookup c lowerPairs = none := by
    apply assocLookup_eq_none
    intro p hp hpc
    have hk := lowerPairs_keys_cased p hp
    rw [hpc, h] at hk
    exact absurd hk (by decide)
  rw [hn, Option.getD_none]

/-- On case-less ASCII characters the modelled `str.upper` is the identity,
in agreement with Python. -/
theorem asciiCaseless_pyUpper {c : Char} (h : asciiCaseless c = true) :
    pyUpper c = c := by
  unfold pyUpper
  have hn : assocLookup c upperPairs = none := by
    apply assocLookup_eq_none
    intro p hp hpc
    have hk := upperPairs_keys_cased p hp
    rw [hpc, h] at hk
    exact absurd hk (by decide)
  rw [hn, Option.getD_none]

/-- C7 counterexample: the claim as stated — every character with no mapping
entry is passed through unchanged — is false: the Chuvash map has no entry
for ё, yet transliterating "тё" yields "tö", in which ё does not occur (the
iotation stage rewrote it).  (The Russian variant likewise alters unmapped
cased letters through its case folding, e.g. the X in "аX".) -/
theorem C7_no_failure_counterexample :
    ¬ ((RussianTransliterator.transliterate [] = [] ∧
        ChuvashTransliterator.transliterate [] = []) ∧
       (∀ (s : List Char) (c : Char), RussianTransliterator.rusMap c = none →
          c ∈ s → c ∈ RussianTransliterator.transliterate s) ∧
       (∀ (s : List Char) (c : Char), ChuvashTransliterator.chuvMap c = none →
          c ∈ s → c ∈ ChuvashTransliterator.transliterate s)) := by
  intro h
  exact absurd (h.2.2 ['т', 'ё'] 'ё' (by decide) (by decide)) (by decide)

/-- C7 (amended): both transliterate operations are total functions of the
input (realised below as fuel-indexed recursions whose fuel always
suffices), and empty input returns empty output.  Every character with no
entry in the variant's mapping table that is not rewritten by an earlier
stage is passed through: for the Chuvash variant every unmapped character
other than the iotated letters е/ё/ю/я (either case, rewritten by the
iotation stage), and for the Russian variant every unmapped character
without case variants — stated for the ASCII characters other than letters,
which demonstrably have none — since the word-level case folding may alter
unmapped cased letters.  "Passed through" is witnessed by occurrence
counts: the output contains at least as many occurrences of the character
as the input. -/
theorem C7_no_failure_amended :
    (RussianTransliterator.transliterate [] = [] ∧
     ChuvashTransliterator.transliterate [] = []) ∧
    (∀ (s : List Char) (c : Char), ChuvashTransliterator.chuvMap c = none →
       c ∉ ChuvashTransliterator.iotatedLetters →
       s.count c ≤ (ChuvashTransliterator.transliterate s).count c) ∧
    (∀ (s : List Char) (c : Char), RussianTransliterator.rusMap c = none →
       asciiCaseless c = true →
       s.count c ≤ (RussianTransliterator.transliterate s).count c) :=
  ⟨⟨rfl, rfl⟩,
   fun s c hm hio => ChuvashTransliterator.chuv_transliterate_count hm hio s,
   fun s c hm hcl => RussianTransliterator.rus_transliterate_count hm
     (asciiCaseless_pyLower hcl) (asciiCaseless_pyUpper hcl) s⟩

/-- Witness for C7 (amended): the unmapped, case-less hyphen inside the
Cyrillic word "а-б" survives Russian transliteration, and the unmapped
non-iotated hyphen in "ту-тӑ" survives Chuvash transliteration. -/
theorem C7_no_failure_amended_witness :
    (RussianTransliterator.rusMap '-' = none ∧ asciiCaseless '-' = true ∧
      ChuvashTransliterator.chuvMap '-' = none ∧
      '-' ∉ ChuvashTransliterator.iotatedLetters) ∧
    ['а', '-', 'б'].count '-' ≤
      (RussianTransliterator.transliterate ['а', '-', 'б']).count '-' ∧
    ['т', 'у', '-', 'т', 'ӑ'].count '-' ≤
      (ChuvashTransliterator.transliterate ['т', 'у', '-', 'т', 'ӑ']).count '-' :=
  ⟨⟨by decide, by decide, by decide, by decide⟩,
   C7_no_failure_amended.2.2 ['а', '-', 'б'] '-' (by decide) (by decide),
   C7_no_failure_amended.2.1 ['т', 'у', '-', 'т', 'ӑ'] '-' (by decide) (by decide)⟩
